import Mathlib

/-!
Verification of the NeMo text-processing WFST grammars.

The sources build weighted finite-state transducers from the pynini
combinator library: literal deletion/insertion, acceptors, character
classes, concatenation, weighted union, Kleene closure and weight
attachment.  We embed exactly those combinators as the inductive type
`Fst` and give them an executable semantics `run`: a fuel-indexed
nondeterministic parser returning every (remaining input, output,
weight) triple.  Closure iterations are required to consume input;
every closure constructed by the modelled sources has this property,
so the gate excludes no path of the original transducers.

Entity grammars whose construction lies outside the shown sources are
embedded as abstract leaves (`Fst.gram`) whose semantics is a
parameter `σ`: an atom parse reports how many characters it consumed,
its output and its weight.
-/

namespace NemoWfst
/-- The characters of a string, as a list. -/
def lc (s : String) : List Char := s.data

/-- Deep embedding of the pynini combinators used by the sources:
`del s` maps the literal `s` to nothing (pynutil.delete), `ins s`
maps nothing to `s` (pynutil.insert), `cp s` is the acceptor of `s`
(pynini.accep), `sym p` copies one character satisfying `p`,
`cat`/`alt`/`star` are concatenation, union and closure
(`+`, `|`, pynini.closure), `wt q a` adds tropical weight `q` to
every path of `a` (pynutil.add_weight), and `gram x` is an abstract
entity grammar supplied externally.

Weights are integers denominated in hundredths: the source's decimal
constants are exact multiples of 0.01 (1.01, 1.09, 1.1, 0.9, 100), and
the tropical semiring uses only addition and order, so scaling by 100
is an order-isomorphic embedding (1.01 becomes 101, and so on). -/
inductive Fst (α : Type) : Type where
  | del (s : List Char)
  | ins (s : List Char)
  | cp (s : List Char)
  | sym (p : Char → Bool)
  | cat (a b : Fst α)
  | alt (a b : Fst α)
  | star (a : Fst α)
  | wt (q : ℤ) (a : Fst α)
  | gram (x : α)

/-- A parse result: remaining input, produced output, path weight. -/
abbrev ParseOut : Type := List Char × List Char × ℤ

/-- Semantics of the abstract entity-grammar leaves: for an input, the
list of parses, each given as (number of consumed characters, output,
weight).  Reporting consumption as a count keeps every remainder a
true suffix of the input. -/
abbrev GramSem (α : Type) : Type := α → List Char → List (Nat × List Char × ℤ)

/-- Strip the literal `s` from the front of `i`. -/
def stripPre : List Char → List Char → Option (List Char)
  | [], i => some i
  | _ :: _, [] => none
  | c :: s, d :: i => if c = d then stripPre s i else none
/-- Iteration of a closure body.  Each iteration must strictly consume
input, so `i.length` iterations always suffice; the fuel argument only
serves the termination argument. -/
def runStar (body : List Char → List ParseOut) : Nat → List Char → List ParseOut
  | 0, i => [(i, [], 0)]
  | n + 1, i =>
      (i, [], 0) ::
        ((body i).flatMap fun x =>
          if x.1.length < i.length then
            (runStar body n x.1).map fun y => (y.1, x.2.1 ++ y.2.1, x.2.2 + y.2.2)
          else [])

/-- The parser: every parse of a prefix of `i` by `f`, as (remaining
input, output, weight) triples. -/
def run (σ : GramSem α) : Fst α → List Char → List ParseOut
  | .del s, i =>
      match stripPre s i with
      | some r => [(r, [], 0)]
      | none => []
  | .ins s, i => [(i, s, 0)]
  | .cp s, i =>
      match stripPre s i with
      | some r => [(r, s, 0)]
      | none => []
  | .sym p, i =>
      match i with
      | [] => []
      | c :: r => if p c then [(r, [c], 0)] else []
  | .cat a b, i =>
      (run σ a i).flatMap fun x =>
        (run σ b x.1).map fun y => (y.1, x.2.1 ++ y.2.1, x.2.2 + y.2.2)
  | .alt a b, i => run σ a i ++ run σ b i
  | .star a, i => runStar (fun j => run σ a j) i.length i
  | .wt q a, i => (run σ a i).map fun x => (x.1, x.2.1, q + x.2.2)
  | .gram g, i => (σ g i).map fun x => (i.drop x.1, x.2.1, x.2.2)

/-- `f` parses a prefix of `i`, leaving `r`, producing `o` at weight `w`. -/
def Parses (σ : GramSem α) (f : Fst α) (i r o : List Char) (w : ℤ) : Prop :=
  (r, o, w) ∈ run σ f i

/-- `f` parses all of `i`, producing `o` at weight `w`. -/
def Accepts (σ : GramSem α) (f : Fst α) (i o : List Char) (w : ℤ) : Prop :=
  Parses σ f i [] o w
/-- Chains of consuming iterations: the unfolding of a closure. -/
inductive Chain (P : List Char → List Char → List Char → ℤ → Prop) :
    List Char → List Char → List Char → ℤ → Prop where
  | nil (i : List Char) : Chain P i i [] 0
  | cons {i m r o1 w1 o2 w2} : P i m o1 w1 → m.length < i.length →
      Chain P m r o2 w2 → Chain P i r (o1 ++ o2) (w1 + w2)
/-- Does this term accept exactly the empty-to-empty parse? -/
def isEps : Fst α → Bool
  | .ins [] => true
  | _ => false

/-- Concatenation with unit elimination. -/
def catOpt (a b : Fst α) : Fst α :=
  if isEps a then b else if isEps b then a else .cat a b

/-- Closure with collapse of nested closures and of the unit. -/
def starOpt : Fst α → Fst α
  | .ins [] => .ins []
  | .star c => .star c
  | a => .star a

/-- Weight attachment with removal of the zero weight. -/
def wtOpt (q : ℤ) (a : Fst α) : Fst α :=
  if q = 0 then a else .wt q a

/-- Modelled from the spec: pynini's `optimize` (epsilon removal,
weight pushing, minimization) is implemented outside this repository;
the spec requires only that it be idempotent and preserve the accepted
relation.  We model it as a structural simplification pass over the
combinator terms. -/
def optimize : Fst α → Fst α
  | .cat a b => catOpt (optimize a) (optimize b)
  | .alt a b => .alt (optimize a) (optimize b)
  | .star a => starOpt (optimize a)
  | .wt q a => wtOpt q (optimize a)
  | f => f
/-- All full parses of `i` (empty remainder). -/
def fullRuns (σ : GramSem α) (f : Fst α) (i : List Char) : List ParseOut :=
  (run σ f i).filter (fun x => x.1.isEmpty)
/-- Modelled from the spec: the helpers imported from
`nemo_text_processing/inverse_text_normalization/es/graph_utils.py`
(and the analogous `en` module) are not among the shown sources.
Per the spec, `delete_space` deletes a run of zero or more spaces
(section 4.4 scaffolding), `delete_extra_space` accepts one or more
spaces and emits exactly one (section 4.3), `insert_space` inserts a
single space, and `NEMO_NOT_QUOTE` matches any non-quote character. -/
def delete_space : Fst α := .star (.del [' '])

/-- Modelled from the spec (section 4.3): one-or-more spaces in, one space out. -/
def delete_extra_space : Fst α := .cat (.del [' ']) (.cat (.star (.del [' '])) (.ins [' ']))

/-- Modelled from the spec (section 4.4): insert a single space. -/
def insert_space : Fst α := .ins [' ']

/-- Modelled from the spec (section 4.4): any non-quote character, copied. -/
def notQuote : Fst α := .sym (fun c => c != '"')

/-- pynini.closure(a, 1): one or more repetitions. -/
def plus1 (a : Fst α) : Fst α := .cat a (.star a)

/-- Shared shape of the two field extractors of `DateFst.__init__`
(src/nemo_text_processing/inverse_text_normalization/es/verbalizers/date.py):
delete the label, optional space, and the quotes around a copied
non-empty quote-free value. -/
def fieldExt (lbl : String) : Fst α :=
  .cat (.del (lc lbl)) (.cat delete_space
    (.cat (.del (lc "\"")) (.cat (plus1 notQuote) (.del (lc "\"")))))

/-- The `month` field extractor of `DateFst.__init__`. -/
def dateMonth : Fst α := fieldExt "month:"

/-- The `day` field extractor of `DateFst.__init__`. -/
def dateDay : Fst α := fieldExt "day:"

/-- The marker section of a tagged date token, as consumed by
`optional_preserve_order`: a sequence of `preserve_order: true` markers
(deleted) and `field_order: "c"` markers (the single character `c`
copied to the output), each followed by optional spaces. -/
inductive MarkerSeq : List Char → List Char → Prop where
  | nil : MarkerSeq [] []
  | preserve (k1 k2 : Nat) {t o : List Char} : MarkerSeq t o →
      MarkerSeq (lc "preserve_order:" ++ List.replicate k1 ' ' ++ lc "true" ++
        List.replicate k2 ' ' ++ t) o
  | field (c : Char) (k1 k2 : Nat) {t o : List Char} : c ≠ '"' → MarkerSeq t o →
      MarkerSeq (lc "field_order:" ++ List.replicate k1 ' ' ++
        '"' :: c :: '"' :: (List.replicate k2 ' ' ++ t)) (c :: o)

/-- `graph_dm` of `DateFst.__init__`: day, collapsed space, the literal
connector `de`, an inserted space, month. -/
def graph_dm : Fst α :=
  .cat dateDay (.cat delete_extra_space
    (.cat (.ins (lc "de")) (.cat insert_space dateMonth)))

/-- First alternative of `optional_preserve_order`: delete a
`preserve_order: true` marker and surrounding spaces. -/
def preserveBranch : Fst α :=
  .cat (.del (lc "preserve_order:")) (.cat delete_space
    (.cat (.del (lc "true")) delete_space))

/-- Second alternative of `optional_preserve_order`: delete a
`field_order:` marker, copying the single quoted character through. -/
def fieldOrderBranch : Fst α :=
  .cat (.del (lc "field_order:")) (.cat delete_space
    (.cat (.del (lc "\"")) (.cat notQuote (.cat (.del (lc "\"")) delete_space))))

/-- `optional_preserve_order` of `DateFst.__init__`: a closure over the
two marker alternatives. -/
def optional_preserve_order : Fst α := .star (.alt preserveBranch fieldOrderBranch)

/-- `final_graph` of `DateFst.__init__`. -/
def date_final_graph : Fst α := .cat graph_dm (.cat delete_space optional_preserve_order)

/-- Modelled from the spec (section 4.4): `GraphFst.delete_tokens` of the
absent `graph_utils.py` wraps a verbalizer body as
delete("class_name \x7b") . delete_space . body . delete_space . delete("\x7d"). -/
def delete_tokens (name : String) (f : Fst α) : Fst α :=
  .cat (.del (lc (name ++ " \x7b"))) (.cat delete_space
    (.cat f (.cat delete_space (.del (lc "\x7d")))))

/-- `self.fst` of the date verbalizer: the wrapped body, optimized. -/
def dateVerbFst : Fst α := optimize (delete_tokens "date" date_final_graph)

/-- Grammar-leaf semantics for grammars with no abstract leaves. -/
def noGram : GramSem Empty := fun x => x.elim

/-- The tagged input of spec Example 1. -/
def c1Input : List Char :=
  lc "date \x7b day: \"1\" month: \"enero\" preserve_order: true \x7d"

/-- The surface output of spec Example 1. -/
def c1Out : List Char := lc "1 de enero"

/-- A tagged date token whose field_order marker carries the quoted
value `v`. -/
def c9Input (v : List Char) : List Char :=
  lc "date \x7b day: \"1\" month: \"enero\" field_order: " ++
    ('"' :: (v ++ ('"' :: lc " \x7d")))

/-- A tagged date token carrying both a preserve_order marker and a
field_order marker with quoted character `c`. -/
def c3Input (c : Char) : List Char :=
  lc "date \x7b day: \"1\" month: \"enero\" preserve_order: true field_order: " ++
    ('"' :: c :: '"' :: lc " \x7d")

/-- All characters of `l` differ from the double quote. -/
abbrev NoQuote (l : List Char) : Prop := ∀ c ∈ l, c ≠ '"'

/-- A word character of the modelled Spanish date tagger: neither a
quote nor a space. -/
def notSpaceQuote : Fst α := .sym (fun c => c != '"' && c != ' ')

/-- Modelled from the spec: the Spanish inverse-text-normalization date
tagger is not among the shown sources.  Per the spec overview and
Example 1, it accepts a day word, the literal connector ` de `, and a
month word, and emits the bracketed token
`date \x7b day: "d" month: "m" preserve_order: true \x7d`. -/
def dateTagger : Fst α :=
  .cat (.ins (lc "date \x7b day: \"")) (.cat (plus1 notSpaceQuote)
    (.cat (.ins (lc "\"")) (.cat (.del (lc " de "))
      (.cat (.ins (lc " month: \"")) (.cat (plus1 notSpaceQuote)
        (.ins (lc "\" preserve_order: true \x7d")))))))

/-- The Russian entity grammars used by `ClassifyFst.__init__`
(src/nemo_text_processing/text_normalization/ru/taggers/tokenize_and_classify.py)
are built in modules that are not among the shown sources; they appear
here as abstract grammar leaves. -/
inductive RuGram : Type where
  | whitelist
  | time
  | date
  | decimal
  | measure
  | cardinal
  | ordinal
  | money
  | telephone
  | electronic
  | word
  | punct
deriving DecidableEq

/-- `classify` of `ClassifyFst.__init__`: the weighted union of the
entity grammars, with the source's weights in hundredths
(1.01 = 101, 1.1 = 110, 1.09 = 109, 0.9 = 90, 100 = 10000). -/
def classify : Fst RuGram :=
  .alt (.wt 101 (.gram .whitelist))
    (.alt (.wt 110 (.gram .time))
      (.alt (.wt 109 (.gram .date))
        (.alt (.wt 110 (.gram .decimal))
          (.alt (.wt 90 (.gram .measure))
            (.alt (.wt 110 (.gram .cardinal))
              (.alt (.wt 110 (.gram .ordinal))
                (.alt (.wt 110 (.gram .money))
                  (.alt (.wt 110 (.gram .telephone))
                    (.alt (.wt 110 (.gram .electronic))
                      (.wt 10000 (.gram .word)))))))))))

/-- The union weight the source attaches to each grammar, in hundredths. -/
def ruWeight : RuGram → ℤ
  | .whitelist => 101
  | .time => 110
  | .date => 109
  | .decimal => 110
  | .measure => 90
  | .cardinal => 110
  | .ordinal => 110
  | .money => 110
  | .telephone => 110
  | .electronic => 110
  | .word => 10000
  | .punct => 110

/-- `punct` of `ClassifyFst.__init__`: a wrapped, weighted punctuation token. -/
def punctTok : Fst RuGram :=
  .cat (.ins (lc "tokens \x7b ")) (.cat (.wt 110 (.gram .punct)) (.ins (lc " \x7d")))

/-- `token` of `ClassifyFst.__init__`. -/
def token : Fst RuGram :=
  .cat (.ins (lc "tokens \x7b ")) (.cat classify (.ins (lc " \x7d")))

/-- `token_plus_punct` of `ClassifyFst.__init__`. -/
def token_plus_punct : Fst RuGram :=
  .cat (.star (.cat punctTok (.ins (lc " "))))
    (.cat token (.star (.cat (.ins (lc " ")) punctTok)))

/-- The repetition part of `graph` in `ClassifyFst.__init__`, before
the surrounding `delete_space`. -/
def ruSentenceCore : Fst RuGram :=
  .cat token_plus_punct (.star (.cat (.wt 110 delete_extra_space) token_plus_punct))

/-- `graph` of `ClassifyFst.__init__` (with leading and trailing
`delete_space`); `self.fst` is its optimization. -/
def ruGraph : Fst RuGram := .cat delete_space (.cat ruSentenceCore delete_space)

/-- `self.fst` of `ClassifyFst`. -/
def ruClassifyFst : Fst RuGram := optimize ruGraph

/-- The spec's reference construction (sections 4.3 and 8) of the
full-sentence classifier: each classified span wrapped in the token
delimiters, preceded and followed by any number of punctuation tokens
separated by single inserted spaces, the groups repeated with the
mandatory separators collapsed to one space. -/
def specToken : Fst RuGram := .cat (.ins (lc "tokens \x7b ")) (.cat classify (.ins (lc " \x7d")))

/-- The spec's punctuation token. -/
def specPunctToken : Fst RuGram :=
  .cat (.ins (lc "tokens \x7b ")) (.cat (.wt 110 (.gram .punct)) (.ins (lc " \x7d")))

/-- The spec's token-plus-punctuation group. -/
def specGroup : Fst RuGram :=
  .cat (.star (.cat specPunctToken insert_space))
    (.cat specToken (.star (.cat insert_space specPunctToken)))

/-- The spec's full-sentence grammar: groups joined by collapsed
single-space separators. -/
def specSentence : Fst RuGram :=
  .cat specGroup (.star (.cat (.wt 110 delete_extra_space) specGroup))

/-- A full (input-exhausting) parse by an abstract entity grammar. -/
def GramFull (σ : GramSem α) (g : α) (i o : List Char) (w0 : ℤ) : Prop :=
  ∃ x ∈ σ g i, x.2.1 = o ∧ x.2.2 = w0 ∧ List.drop x.1 i = []

/-- Shortest-path decoding (spec section 4.1): a weight-minimal full parse. -/
def IsMinAccept (σ : GramSem α) (f : Fst α) (i o : List Char) (w : ℤ) : Prop :=
  Accepts σ f i o w ∧ ∀ o2 w2, Accepts σ f i o2 w2 → w ≤ w2

/-- A grammar-leaf semantics on which the date and cardinal grammars
(and also measure) accept the same one-character span with distinct
outputs, at zero internal weight. -/
def sigmaC2 : GramSem RuGram := fun g i =>
  match g, i with
  | RuGram.date, 'x' :: _ => [(1, lc "D", 0)]
  | RuGram.cardinal, 'x' :: _ => [(1, lc "C", 0)]
  | RuGram.measure, 'x' :: _ => [(1, lc "M", 0)]
  | _, _ => []

/-- A consumed span that neither starts nor ends with a space. -/
def GoodSpan (t : List Char) : Prop :=
  t ≠ [] ∧ t.head? ≠ some ' ' ∧ t.getLast? ≠ some ' '

/-- A grammar-leaf semantics with a one-digit cardinal and a
one-character punctuation grammar, used as a witness instance. -/
def sigmaSp : GramSem RuGram := fun g i =>
  match g, i with
  | RuGram.cardinal, '7' :: _ => [(1, lc "C7", 0)]
  | RuGram.punct, ',' :: _ => [(1, lc "PP", 0)]
  | _, _ => []

/-- A grammar-leaf semantics whose word grammar accepts a single `a`. -/
def sigmaC5 : GramSem RuGram := fun g i =>
  match g, i with
  | RuGram.word, 'a' :: _ => [(1, lc "W", 0)]
  | _, _ => []

/-- A span of `token_plus_punct`: a good span together with a parse of
the group consuming exactly that span. -/
def TppSpan (σ : GramSem RuGram) (t o : List Char) : Prop :=
  GoodSpan t ∧ ∃ r w, Parses σ token_plus_punct (t ++ r) r o w

/-- Token groups joined by non-empty space runs in the input and by
exactly one space in the output. -/
inductive GapChain (Q : List Char → List Char → Prop) : List Char → List Char → Prop where
  | nil : GapChain Q [] []
  | cons {g : ℕ} {t o rest orest : List Char} : 1 ≤ g → Q t o → GapChain Q rest orest →
      GapChain Q (List.replicate g ' ' ++ (t ++ rest)) (' ' :: (o ++ orest))

/-- `_generator_main` of src/tools/text_processing_deployment/pynini_export.py:
every rule's graph is optimized immediately before being written under
its rule name. -/
def generator_main (graphs : List (String × Fst α)) : List (String × Fst α) :=
  graphs.map (fun p => (p.1, optimize p.2))

/-- `itn_grammars` of pynini_export.py. -/
def itn_grammars (classifyFst verbalizeFst : Fst α) : List (String × List (String × Fst α)) :=
  [("classify", [("TOKENIZE_AND_CLASSIFY", classifyFst)]),
   ("verbalize", [("ALL", verbalizeFst), ("REDUP", Fst.cp (lc "REDUP"))])]

/-- `tn_grammars` of pynini_export.py (the classifier and verbalizer
constructors are abstract here, as in the source they are imported per
language). -/
def tn_grammars (classifyFst verbalizeFst : Fst α) : List (String × List (String × Fst α)) :=
  [("classify", [("TOKENIZE_AND_CLASSIFY", classifyFst)]),
   ("verbalize", [("ALL", verbalizeFst), ("REDUP", Fst.cp (lc "REDUP"))])]

/-- `export_grammars` of pynini_export.py: each category's rules pass
through `_generator_main`. -/
def export_grammars (grammars : List (String × List (String × Fst α))) :
    List (String × List (String × Fst α)) :=
  grammars.map (fun p => (p.1, generator_main p.2))

/-! ## Theorems -/
theorem stripPre_eq_some {s : List Char} :
    ∀ {i r : List Char}, stripPre s i = some r → i = s ++ r := by
  induction s with
  | nil => intro i r h; simp only [stripPre, Option.some.injEq] at h; simp [h]
  | cons c s ih =>
    intro i r h
    cases i with
    | nil => simp [stripPre] at h
    | cons d i =>
      by_cases hc : c = d
      · subst hc
        simp only [stripPre, if_pos rfl] at h
        simpa using ih h
      · simp [stripPre, hc] at h

theorem stripPre_append (s r : List Char) : stripPre s (s ++ r) = some r := by
  induction s with
  | nil => simp [stripPre]
  | cons c s ih => simp [stripPre, ih]

theorem runStar_mono (body : List Char → List ParseOut) :
    ∀ {n m : Nat}, n ≤ m → ∀ i, runStar body n i ⊆ runStar body m i := by
  intro n
  induction n with
  | zero =>
    intro m hm i x hx
    simp only [runStar, List.mem_singleton] at hx
    cases m with
    | zero => simpa [runStar] using hx
    | succ m => simp [runStar, hx]
  | succ n ih =>
    intro m hm i x hx
    obtain ⟨m, rfl⟩ : ∃ k, m = k + 1 := ⟨m - 1, by omega⟩
    simp only [runStar, List.mem_cons, List.mem_flatMap] at hx ⊢
    rcases hx with h | ⟨u, hu, h⟩
    · exact Or.inl h
    · refine Or.inr ⟨u, hu, ?_⟩
      by_cases hlt : u.1.length < i.length
      · simp only [if_pos hlt, List.mem_map] at h ⊢
        obtain ⟨v, hv, rfl⟩ := h
        exact ⟨v, ih (by omega) u.1 hv, rfl⟩
      · rw [if_neg hlt] at h
        simp at h

/-- Every parse remainder is a suffix: the consumed span is a prefix. -/
theorem run_consumes (σ : GramSem α) :
    ∀ (f : Fst α) (i : List Char), ∀ x ∈ run σ f i, ∃ t, i = t ++ x.1 := by
  intro f
  induction f with
  | del s =>
    intro i x hx
    simp only [run] at hx
    cases h : stripPre s i with
    | none => rw [h] at hx; simp at hx
    | some r =>
      rw [h] at hx
      simp only [List.mem_singleton] at hx
      exact ⟨s, by rw [hx]; exact stripPre_eq_some h⟩
  | ins s =>
    intro i x hx
    simp only [run, List.mem_singleton] at hx
    exact ⟨[], by simp [hx]⟩
  | cp s =>
    intro i x hx
    simp only [run] at hx
    cases h : stripPre s i with
    | none => rw [h] at hx; simp at hx
    | some r =>
      rw [h] at hx
      simp only [List.mem_singleton] at hx
      exact ⟨s, by rw [hx]; exact stripPre_eq_some h⟩
  | sym p =>
    intro i x hx
    cases i with
    | nil => simp [run] at hx
    | cons c r =>
      simp only [run] at hx
      by_cases hp : p c
      · simp only [if_pos hp, List.mem_singleton] at hx
        exact ⟨[c], by simp [hx]⟩
      · simp [if_neg hp] at hx
  | gram g =>
    intro i x hx
    simp only [run, List.mem_map] at hx
    obtain ⟨u, -, rfl⟩ := hx
    exact ⟨i.take u.1, (List.take_append_drop u.1 i).symm⟩
  | cat a b iha ihb =>
    intro i x hx
    simp only [run, List.mem_flatMap, List.mem_map] at hx
    obtain ⟨u, hu, v, hv, rfl⟩ := hx
    obtain ⟨t1, ht1⟩ := iha i u hu
    obtain ⟨t2, ht2⟩ := ihb u.1 v hv
    exact ⟨t1 ++ t2, by rw [ht1, ht2]; simp⟩
  | alt a b iha ihb =>
    intro i x hx
    simp only [run, List.mem_append] at hx
    rcases hx with h | h
    · exact iha i x h
    · exact ihb i x h
  | wt q a iha =>
    intro i x hx
    simp only [run, List.mem_map] at hx
    obtain ⟨u, hu, rfl⟩ := hx
    exact iha i u hu
  | star a iha =>
    intro i x hx
    simp only [run] at hx
    suffices h : ∀ (n : Nat) (j : List Char), ∀ y ∈ runStar (fun j2 => run σ a j2) n j,
        ∃ t, j = t ++ y.1 by
      exact h i.length i x hx
    intro n
    induction n with
    | zero =>
      intro j y hy
      simp only [runStar, List.mem_singleton] at hy
      exact ⟨[], by simp [hy]⟩
    | succ n ihn =>
      intro j y hy
      simp only [runStar, List.mem_cons, List.mem_flatMap] at hy
      rcases hy with h | ⟨u, hu, h⟩
      · exact ⟨[], by simp [h]⟩
      · by_cases hlt : u.1.length < j.length
        · simp only [if_pos hlt, List.mem_map] at h
          obtain ⟨v, hv, rfl⟩ := h
          obtain ⟨t1, ht1⟩ := iha j u hu
          obtain ⟨t2, ht2⟩ := ihn u.1 v hv
          exact ⟨t1 ++ t2, by rw [ht1, ht2]; simp⟩
        · simp [if_neg hlt] at h

theorem parses_del_iff (σ : GramSem α) (s i r o : List Char) (w : ℤ) :
    Parses σ (.del s) i r o w ↔ i = s ++ r ∧ o = [] ∧ w = 0 := by
  unfold Parses
  constructor
  · intro h
    simp only [run] at h
    cases hs : stripPre s i with
    | none => rw [hs] at h; simp at h
    | some r2 =>
      rw [hs] at h
      simp only [List.mem_singleton, Prod.mk.injEq] at h
      obtain ⟨rfl, rfl, rfl⟩ := h
      exact ⟨stripPre_eq_some hs, rfl, rfl⟩
  · rintro ⟨rfl, rfl, rfl⟩
    simp [run, stripPre_append]

theorem parses_ins_iff (σ : GramSem α) (s i r o : List Char) (w : ℤ) :
    Parses σ (.ins s) i r o w ↔ r = i ∧ o = s ∧ w = 0 := by
  unfold Parses
  simp only [run, List.mem_singleton, Prod.mk.injEq]

theorem parses_cp_iff (σ : GramSem α) (s i r o : List Char) (w : ℤ) :
    Parses σ (.cp s) i r o w ↔ i = s ++ r ∧ o = s ∧ w = 0 := by
  unfold Parses
  constructor
  · intro h
    simp only [run] at h
    cases hs : stripPre s i with
    | none => rw [hs] at h; simp at h
    | some r2 =>
      rw [hs] at h
      simp only [List.mem_singleton, Prod.mk.injEq] at h
      obtain ⟨rfl, rfl, rfl⟩ := h
      exact ⟨stripPre_eq_some hs, rfl, rfl⟩
  · rintro ⟨rfl, rfl, rfl⟩
    simp [run, stripPre_append]

theorem parses_sym_iff (σ : GramSem α) (p : Char → Bool) (i r o : List Char) (w : ℤ) :
    Parses σ (.sym p) i r o w ↔ ∃ c, i = c :: r ∧ p c = true ∧ o = [c] ∧ w = 0 := by
  unfold Parses
  constructor
  · intro h
    cases i with
    | nil => simp [run] at h
    | cons c r2 =>
      simp only [run] at h
      by_cases hp : p c
      · simp only [if_pos hp, List.mem_singleton, Prod.mk.injEq] at h
        obtain ⟨rfl, rfl, rfl⟩ := h
        exact ⟨c, rfl, hp, rfl, rfl⟩
      · simp [if_neg hp] at h
  · rintro ⟨c, rfl, hp, rfl, rfl⟩
    simp [run, hp]

theorem parses_gram_iff (σ : GramSem α) (g : α) (i r o : List Char) (w : ℤ) :
    Parses σ (.gram g) i r o w ↔ ∃ k, (k, o, w) ∈ σ g i ∧ r = i.drop k := by
  unfold Parses
  constructor
  · intro h
    simp only [run, List.mem_map] at h
    obtain ⟨u, hu, hx⟩ := h
    obtain ⟨k, o1, w1⟩ := u
    simp only [Prod.mk.injEq] at hx
    obtain ⟨h1, rfl, rfl⟩ := hx
    exact ⟨k, hu, h1.symm⟩
  · rintro ⟨k, hk, rfl⟩
    simp only [run, List.mem_map]
    exact ⟨(k, o, w), hk, rfl⟩

theorem parses_cat_iff (σ : GramSem α) (a b : Fst α) (i r o : List Char) (w : ℤ) :
    Parses σ (.cat a b) i r o w ↔
      ∃ r1 o1 w1 o2 w2, Parses σ a i r1 o1 w1 ∧ Parses σ b r1 r o2 w2 ∧
        o = o1 ++ o2 ∧ w = w1 + w2 := by
  unfold Parses
  constructor
  · intro h
    simp only [run, List.mem_flatMap, List.mem_map] at h
    obtain ⟨u, hu, v, hv, hx⟩ := h
    obtain ⟨r1, o1, w1⟩ := u
    obtain ⟨r2, o2, w2⟩ := v
    simp only [Prod.mk.injEq] at hx
    obtain ⟨rfl, rfl, rfl⟩ := hx
    exact ⟨r1, o1, w1, o2, w2, hu, hv, rfl, rfl⟩
  · rintro ⟨r1, o1, w1, o2, w2, h1, h2, rfl, rfl⟩
    simp only [run, List.mem_flatMap, List.mem_map]
    exact ⟨(r1, o1, w1), h1, (r, o2, w2), h2, rfl⟩

theorem parses_alt_iff (σ : GramSem α) (a b : Fst α) (i r o : List Char) (w : ℤ) :
    Parses σ (.alt a b) i r o w ↔ Parses σ a i r o w ∨ Parses σ b i r o w := by
  unfold Parses
  simp only [run, List.mem_append]

theorem parses_wt_iff (σ : GramSem α) (q : ℤ) (a : Fst α) (i r o : List Char) (w : ℤ) :
    Parses σ (.wt q a) i r o w ↔ ∃ w0, Parses σ a i r o w0 ∧ w = q + w0 := by
  unfold Parses
  constructor
  · intro h
    simp only [run, List.mem_map] at h
    obtain ⟨u, hu, hx⟩ := h
    obtain ⟨r1, o1, w1⟩ := u
    simp only [Prod.mk.injEq] at hx
    obtain ⟨rfl, rfl, rfl⟩ := hx
    exact ⟨w1, hu, rfl⟩
  · rintro ⟨w0, h, rfl⟩
    simp only [run, List.mem_map]
    exact ⟨(r, o, w0), h, rfl⟩
theorem runStar_sound (σ : GramSem α) (a : Fst α) :
    ∀ (n : Nat) (i r o : List Char) (w : ℤ),
      (r, o, w) ∈ runStar (fun j => run σ a j) n i →
        Chain (fun i2 r2 o2 w2 => Parses σ a i2 r2 o2 w2) i r o w := by
  intro n
  induction n with
  | zero =>
    intro i r o w h
    simp only [runStar, List.mem_singleton, Prod.mk.injEq] at h
    obtain ⟨rfl, rfl, rfl⟩ := h
    exact Chain.nil _
  | succ n ih =>
    intro i r o w h
    simp only [runStar, List.mem_cons, List.mem_flatMap] at h
    rcases h with h | ⟨u, hu, h⟩
    · simp only [Prod.mk.injEq] at h
      obtain ⟨rfl, rfl, rfl⟩ := h
      exact Chain.nil _
    · by_cases hlt : u.1.length < i.length
      · simp only [if_pos hlt, List.mem_map] at h
        obtain ⟨v, hv, hx⟩ := h
        obtain ⟨r1, o1, w1⟩ := u
        obtain ⟨r2, o2, w2⟩ := v
        simp only [Prod.mk.injEq] at hx
        obtain ⟨rfl, rfl, rfl⟩ := hx
        exact Chain.cons hu hlt (ih _ _ _ _ hv)
      · simp [if_neg hlt] at h

theorem runStar_complete (σ : GramSem α) (a : Fst α) {i r o : List Char} {w : ℤ}
    (h : Chain (fun i2 r2 o2 w2 => Parses σ a i2 r2 o2 w2) i r o w) :
    (r, o, w) ∈ runStar (fun j => run σ a j) i.length i := by
  induction h with
  | nil j =>
    cases hl : j.length with
    | zero => simp [runStar]
    | succ k => simp [runStar]
  | cons hp hlt htail ih =>
    rename_i i2 m r2 o1 w1 o2 w2
    obtain ⟨k, hk⟩ : ∃ k, i2.length = k + 1 := ⟨i2.length - 1, by omega⟩
    rw [hk]
    simp only [runStar, List.mem_cons, List.mem_flatMap]
    refine Or.inr ⟨(m, o1, w1), hp, ?_⟩
    simp only [if_pos hlt, List.mem_map]
    exact ⟨(r2, o2, w2), runStar_mono _ (by omega) m ih, rfl⟩

theorem parses_star_iff (σ : GramSem α) (a : Fst α) (i r o : List Char) (w : ℤ) :
    Parses σ (.star a) i r o w ↔ Chain (fun i2 r2 o2 w2 => Parses σ a i2 r2 o2 w2) i r o w := by
  constructor
  · intro h
    exact runStar_sound σ a i.length i r o w h
  · intro h
    exact runStar_complete σ a h

theorem parses_of_isEps (σ : GramSem α) (a : Fst α) (ha : isEps a = true)
    (i r o : List Char) (w : ℤ) :
    Parses σ a i r o w ↔ r = i ∧ o = [] ∧ w = 0 := by
  cases a with
  | ins s =>
    cases s with
    | nil => exact parses_ins_iff σ [] i r o w
    | cons c t => simp [isEps] at ha
  | del s => simp [isEps] at ha
  | cp s => simp [isEps] at ha
  | sym p => simp [isEps] at ha
  | cat a b => simp [isEps] at ha
  | alt a b => simp [isEps] at ha
  | star a => simp [isEps] at ha
  | wt q a => simp [isEps] at ha
  | gram g => simp [isEps] at ha

theorem parses_catOpt_iff (σ : GramSem α) (a b : Fst α) (i r o : List Char) (w : ℤ) :
    Parses σ (catOpt a b) i r o w ↔ Parses σ (.cat a b) i r o w := by
  unfold catOpt
  by_cases ha : isEps a
  · rw [if_pos ha, parses_cat_iff]
    constructor
    · intro h
      exact ⟨i, [], 0, o, w, (parses_of_isEps σ a ha i i [] 0).mpr ⟨rfl, rfl, rfl⟩, h,
        rfl, by ring⟩
    · rintro ⟨r1, o1, w1, o2, w2, h1, h2, rfl, rfl⟩
      obtain ⟨rfl, rfl, rfl⟩ := (parses_of_isEps σ a ha i r1 o1 w1).mp h1
      simpa using h2
  · rw [if_neg ha]
    by_cases hb : isEps b
    · rw [if_pos hb, parses_cat_iff]
      constructor
      · intro h
        exact ⟨r, o, w, [], 0, h, (parses_of_isEps σ b hb r r [] 0).mpr ⟨rfl, rfl, rfl⟩,
          by simp, by ring⟩
      · rintro ⟨r1, o1, w1, o2, w2, h1, h2, rfl, rfl⟩
        obtain ⟨rfl, rfl, rfl⟩ := (parses_of_isEps σ b hb r1 r o2 w2).mp h2
        simpa using h1
    · rw [if_neg hb]

theorem chain_cast {P : List Char → List Char → List Char → ℤ → Prop}
    {i r o o2 : List Char} {w w2 : ℤ} (h : Chain P i r o w) (ho : o = o2) (hw : w = w2) :
    Chain P i r o2 w2 := by
  subst ho; subst hw; exact h

theorem chain_rem_le {P : List Char → List Char → List Char → ℤ → Prop}
    {i r o : List Char} {w : ℤ} (h : Chain P i r o w) : r.length ≤ i.length := by
  induction h with
  | nil => exact Nat.le_refl _
  | cons _ hlt _ ih => omega

theorem chain_append {P : List Char → List Char → List Char → ℤ → Prop}
    {i m r o1 o2 : List Char} {w1 w2 : ℤ} (h1 : Chain P i m o1 w1)
    (h2 : Chain P m r o2 w2) : Chain P i r (o1 ++ o2) (w1 + w2) := by
  induction h1 with
  | nil => exact chain_cast h2 (by simp) (by ring)
  | cons hp hlt _ ih =>
    exact chain_cast (Chain.cons hp hlt (ih h2)) (by simp) (by ring)

theorem parses_star_star_iff (σ : GramSem α) (a : Fst α) (i r o : List Char) (w : ℤ) :
    Parses σ (.star (.star a)) i r o w ↔ Parses σ (.star a) i r o w := by
  rw [parses_star_iff, parses_star_iff]
  constructor
  · intro h
    induction h with
    | nil => exact Chain.nil _
    | cons hp hlt _ ih =>
      exact chain_append ((parses_star_iff σ a _ _ _ _).mp hp) ih
  · intro h
    cases h with
    | nil => exact Chain.nil _
    | cons hp hlt htail =>
      have hstep : Parses σ (.star a) i _ _ _ :=
        (parses_star_iff σ a _ _ _ _).mpr (Chain.cons hp hlt htail)
      have hcons : _ := Chain.cons (P := fun i2 r2 o2 w2 => Parses σ (.star a) i2 r2 o2 w2)
        hstep (by have := chain_rem_le htail; omega) (Chain.nil _)
      exact chain_cast hcons (by simp) (by ring)

theorem parses_starOpt_iff (σ : GramSem α) (a : Fst α) (i r o : List Char) (w : ℤ) :
    Parses σ (starOpt a) i r o w ↔ Parses σ (.star a) i r o w := by
  cases a with
  | ins s =>
    cases s with
    | nil =>
      show Parses σ (.ins []) i r o w ↔ _
      rw [parses_ins_iff, parses_star_iff]
      constructor
      · rintro ⟨rfl, rfl, rfl⟩
        exact Chain.nil _
      · intro h
        cases h with
        | nil => exact ⟨rfl, rfl, rfl⟩
        | cons hp hlt htail =>
          obtain ⟨rfl, -, -⟩ := (parses_ins_iff σ [] _ _ _ _).mp hp
          omega
    | cons c t => exact Iff.rfl
  | star c => exact (parses_star_star_iff σ c i r o w).symm
  | del s => exact Iff.rfl
  | cp s => exact Iff.rfl
  | sym p => exact Iff.rfl
  | cat a b => exact Iff.rfl
  | alt a b => exact Iff.rfl
  | wt q a => exact Iff.rfl
  | gram g => exact Iff.rfl

theorem parses_wtOpt_iff (σ : GramSem α) (q : ℤ) (a : Fst α) (i r o : List Char) (w : ℤ) :
    Parses σ (wtOpt q a) i r o w ↔ Parses σ (.wt q a) i r o w := by
  unfold wtOpt
  by_cases hq : q = 0
  · rw [if_pos hq, parses_wt_iff]
    subst hq
    constructor
    · intro h
      exact ⟨w, h, by ring⟩
    · rintro ⟨w0, h, rfl⟩
      simpa using h
  · rw [if_neg hq]

/-- The simplification pass preserves the whole parse relation. -/
theorem optimize_preserves (σ : GramSem α) (f : Fst α) :
    ∀ (i r o : List Char) (w : ℤ), Parses σ (optimize f) i r o w ↔ Parses σ f i r o w := by
  induction f with
  | del s => intro i r o w; exact Iff.rfl
  | ins s => intro i r o w; exact Iff.rfl
  | cp s => intro i r o w; exact Iff.rfl
  | sym p => intro i r o w; exact Iff.rfl
  | gram g => intro i r o w; exact Iff.rfl
  | cat a b iha ihb =>
    intro i r o w
    show Parses σ (catOpt (optimize a) (optimize b)) i r o w ↔ _
    rw [parses_catOpt_iff, parses_cat_iff, parses_cat_iff]
    constructor
    · rintro ⟨r1, o1, w1, o2, w2, h1, h2, rfl, rfl⟩
      exact ⟨r1, o1, w1, o2, w2, (iha _ _ _ _).mp h1, (ihb _ _ _ _).mp h2, rfl, rfl⟩
    · rintro ⟨r1, o1, w1, o2, w2, h1, h2, rfl, rfl⟩
      exact ⟨r1, o1, w1, o2, w2, (iha _ _ _ _).mpr h1, (ihb _ _ _ _).mpr h2, rfl, rfl⟩
  | alt a b iha ihb =>
    intro i r o w
    show Parses σ (.alt (optimize a) (optimize b)) i r o w ↔ _
    rw [parses_alt_iff, parses_alt_iff]
    exact or_congr (iha i r o w) (ihb i r o w)
  | star a iha =>
    intro i r o w
    show Parses σ (starOpt (optimize a)) i r o w ↔ _
    rw [parses_starOpt_iff, parses_star_iff, parses_star_iff]
    constructor
    · intro h
      induction h with
      | nil => exact Chain.nil _
      | cons hp hlt _ ih => exact Chain.cons ((iha _ _ _ _).mp hp) hlt ih
    · intro h
      induction h with
      | nil => exact Chain.nil _
      | cons hp hlt _ ih => exact Chain.cons ((iha _ _ _ _).mpr hp) hlt ih
  | wt q a iha =>
    intro i r o w
    show Parses σ (wtOpt q (optimize a)) i r o w ↔ _
    rw [parses_wtOpt_iff, parses_wt_iff, parses_wt_iff]
    constructor
    · rintro ⟨w0, h, rfl⟩
      exact ⟨w0, (iha _ _ _ _).mp h, rfl⟩
    · rintro ⟨w0, h, rfl⟩
      exact ⟨w0, (iha _ _ _ _).mpr h, rfl⟩
theorem accepts_iff_mem_fullRuns (σ : GramSem α) (f : Fst α) (i o : List Char) (w : ℤ) :
    Accepts σ f i o w ↔ ([], o, w) ∈ fullRuns σ f i := by
  unfold Accepts Parses fullRuns
  rw [List.mem_filter]
  simp
/-- C1: feeding the tagged string
`date \x7b day: "1" month: "enero" preserve_order: true \x7d` to the date
verbalizer produces exactly the output `1 de enero` (at weight 0): the
field values are copied, all structural markers are deleted, and a
single space, the literal `de`, and another single space are inserted
between the day and month values. -/
theorem c1_date_example_exact (o : List Char) (w : ℤ) :
    Accepts noGram dateVerbFst c1Input o w ↔ o = c1Out ∧ w = 0 := by
  rw [accepts_iff_mem_fullRuns]
  constructor
  · intro hmem
    have hall : (fullRuns noGram dateVerbFst c1Input).all
        (fun x => x = ([], c1Out, 0)) = true := by decide
    have h5 := List.all_eq_true.mp hall _ hmem
    simp only [decide_eq_true_eq, Prod.mk.injEq] at h5
    exact ⟨h5.2.1, h5.2.2⟩
  · rintro ⟨rfl, rfl⟩
    decide

theorem parses_delete_space_iff (σ : GramSem α) (i r o : List Char) (w : ℤ) :
    Parses σ delete_space i r o w ↔
      ∃ k, i = List.replicate k ' ' ++ r ∧ o = [] ∧ w = 0 := by
  show Parses σ (.star (.del [' '])) i r o w ↔ _
  rw [parses_star_iff]
  constructor
  · intro h
    induction h with
    | nil j => exact ⟨0, by simp, rfl, rfl⟩
    | cons hp hlt htail ih =>
      rename_i i2 m r2 o1 w1 o2 w2
      obtain ⟨hi, rfl, rfl⟩ := (parses_del_iff σ [' '] i2 m o1 w1).mp hp
      obtain ⟨k, hk, rfl, rfl⟩ := ih
      refine ⟨k + 1, ?_, by simp, by ring⟩
      rw [hi, hk]
      simp [List.replicate_succ]
  · rintro ⟨k, rfl, rfl, rfl⟩
    induction k with
    | zero => simpa using Chain.nil r
    | succ k ih =>
      have hstep : Parses σ (.del [' ']) (List.replicate (k + 1) ' ' ++ r)
          (List.replicate k ' ' ++ r) [] 0 :=
        (parses_del_iff σ [' '] _ _ _ _).mpr ⟨by simp [List.replicate_succ], rfl, rfl⟩
      have hlt : (List.replicate k ' ' ++ r).length < (List.replicate (k + 1) ' ' ++ r).length := by
        simp only [List.length_append, List.length_replicate]
        omega
      exact chain_cast (Chain.cons hstep hlt ih) (by simp) (by ring)

theorem parses_star_sym_iff (σ : GramSem α) (p : Char → Bool) (i r o : List Char) (w : ℤ) :
    Parses σ (.star (.sym p)) i r o w ↔
      ∃ d, (∀ c ∈ d, p c = true) ∧ i = d ++ r ∧ o = d ∧ w = 0 := by
  rw [parses_star_iff]
  constructor
  · intro h
    induction h with
    | nil j => exact ⟨[], by simp, by simp, rfl, rfl⟩
    | cons hp hlt htail ih =>
      rename_i i2 m r2 o1 w1 o2 w2
      obtain ⟨c, hi, hpc, rfl, rfl⟩ := (parses_sym_iff σ p i2 m o1 w1).mp hp
      obtain ⟨d, hd, hk, ho, hw⟩ := ih
      refine ⟨c :: d, ?_, ?_, by simp [ho], by simp [hw]⟩
      · intro c2 hc2
        rcases List.mem_cons.mp hc2 with rfl | hc2
        · exact hpc
        · exact hd c2 hc2
      · rw [hi, hk]
        simp
  · rintro ⟨d, hd, hi, ho, hw⟩
    subst hi; subst ho; subst hw
    revert hd
    induction o with
    | nil => intro hd; simpa using Chain.nil r
    | cons c d ih =>
      intro hd
      have hstep : Parses σ (.sym p) (c :: d ++ r) (d ++ r) [c] 0 :=
        (parses_sym_iff σ p _ _ _ _).mpr ⟨c, by simp, hd c (by simp), rfl, rfl⟩
      have htail := ih (fun c2 hc2 => hd c2 (List.mem_cons_of_mem c hc2))
      exact chain_cast (Chain.cons hstep (by simp) htail) (by simp) (by ring)

theorem parses_plus1_notQuote_iff (σ : GramSem α) (i r o : List Char) (w : ℤ) :
    Parses σ (plus1 notQuote) i r o w ↔
      ∃ d, d ≠ [] ∧ (∀ c ∈ d, c ≠ '"') ∧ i = d ++ r ∧ o = d ∧ w = 0 := by
  show Parses σ (.cat (.sym _) (.star (.sym _))) i r o w ↔ _
  rw [parses_cat_iff]
  constructor
  · rintro ⟨r1, o1, w1, o2, w2, h1, h2, rfl, rfl⟩
    obtain ⟨c, rfl, hpc, rfl, rfl⟩ := (parses_sym_iff σ _ _ _ _ _).mp h1
    obtain ⟨d, hd, rfl, rfl, rfl⟩ := (parses_star_sym_iff σ _ _ _ _ _).mp h2
    refine ⟨c :: o2, by simp, ?_, by simp, rfl, by ring⟩
    intro c2 hc2
    rcases List.mem_cons.mp hc2 with rfl | hc2
    · simpa using hpc
    · simpa using hd c2 hc2
  · rintro ⟨d, hne, hq, rfl, rfl, rfl⟩
    cases o with
    | nil => exact absurd rfl hne
    | cons c d =>
      refine ⟨d ++ r, [c], 0, d, 0,
        (parses_sym_iff σ _ _ _ _ _).mpr ⟨c, by simp, by simpa using hq c (by simp), rfl, rfl⟩,
        (parses_star_sym_iff σ _ _ _ _ _).mpr
          ⟨d, fun c2 hc2 => by simpa using hq c2 (List.mem_cons_of_mem c hc2), rfl, rfl, rfl⟩,
        rfl, rfl⟩

theorem parses_delete_extra_space_iff (σ : GramSem α) (i r o : List Char) (w : ℤ) :
    Parses σ delete_extra_space i r o w ↔
      ∃ g, 1 ≤ g ∧ i = List.replicate g ' ' ++ r ∧ o = [' '] ∧ w = 0 := by
  show Parses σ (.cat (.del [' ']) (.cat (.star (.del [' '])) (.ins [' ']))) i r o w ↔ _
  rw [parses_cat_iff]
  constructor
  · rintro ⟨r1, o1, w1, o2, w2, h1, h2, rfl, rfl⟩
    obtain ⟨rfl, rfl, rfl⟩ := (parses_del_iff σ [' '] _ _ _ _).mp h1
    rw [parses_cat_iff] at h2
    obtain ⟨r3, o3, w3, o4, w4, h3, h4, rfl, rfl⟩ := h2
    obtain ⟨k, rfl, rfl, rfl⟩ := (parses_delete_space_iff σ _ _ _ _).mp h3
    obtain ⟨rfl, rfl, rfl⟩ := (parses_ins_iff σ [' '] _ _ _ _).mp h4
    exact ⟨k + 1, by omega, by simp [List.replicate_succ], rfl, by ring⟩
  · rintro ⟨g, hg, rfl, rfl, rfl⟩
    obtain ⟨k, rfl⟩ : ∃ k, g = k + 1 := ⟨g - 1, by omega⟩
    refine ⟨List.replicate k ' ' ++ r, [], 0, [' '], 0,
      (parses_del_iff σ [' '] _ _ _ _).mpr ⟨by simp [List.replicate_succ], rfl, rfl⟩,
      ?_, rfl, rfl⟩
    rw [parses_cat_iff]
    exact ⟨r, [], 0, [' '], 0,
      (parses_delete_space_iff σ _ _ _ _).mpr ⟨k, rfl, rfl, rfl⟩,
      (parses_ins_iff σ [' '] _ _ _ _).mpr ⟨rfl, rfl, rfl⟩, rfl, rfl⟩

theorem parses_fieldExt_iff (σ : GramSem α) (lbl : String) (i r o : List Char) (w : ℤ) :
    Parses σ (fieldExt lbl) i r o w ↔
      ∃ k d, d ≠ [] ∧ (∀ c ∈ d, c ≠ '"') ∧
        i = lc lbl ++ (List.replicate k ' ' ++ (lc "\"" ++ (d ++ (lc "\"" ++ r)))) ∧
        o = d ∧ w = 0 := by
  show Parses σ (.cat (.del (lc lbl)) (.cat delete_space
    (.cat (.del (lc "\"")) (.cat (plus1 notQuote) (.del (lc "\"")))))) i r o w ↔ _
  rw [parses_cat_iff]
  constructor
  · rintro ⟨r1, o1, w1, o2, w2, h1, h2, rfl, rfl⟩
    obtain ⟨rfl, rfl, rfl⟩ := (parses_del_iff σ _ _ _ _ _).mp h1
    rw [parses_cat_iff] at h2
    obtain ⟨r2, o3, w3, o4, w4, h3, h4, rfl, rfl⟩ := h2
    obtain ⟨k, rfl, rfl, rfl⟩ := (parses_delete_space_iff σ _ _ _ _).mp h3
    rw [parses_cat_iff] at h4
    obtain ⟨r3, o5, w5, o6, w6, h5, h6, rfl, rfl⟩ := h4
    obtain ⟨rfl, rfl, rfl⟩ := (parses_del_iff σ _ _ _ _ _).mp h5
    rw [parses_cat_iff] at h6
    obtain ⟨r4, o7, w7, o8, w8, h7, h8, rfl, rfl⟩ := h6
    obtain ⟨d, hne, hq, rfl, rfl, rfl⟩ := (parses_plus1_notQuote_iff σ _ _ _ _).mp h7
    obtain ⟨rfl, rfl, rfl⟩ := (parses_del_iff σ _ _ _ _ _).mp h8
    exact ⟨k, o7, hne, hq, by simp, by simp, by ring⟩
  · rintro ⟨k, d, hne, hq, rfl, rfl, rfl⟩
    refine ⟨_, [], 0, o, 0, (parses_del_iff σ _ _ _ _ _).mpr ⟨rfl, rfl, rfl⟩, ?_, by simp, rfl⟩
    rw [parses_cat_iff]
    refine ⟨_, [], 0, o, 0, (parses_delete_space_iff σ _ _ _ _).mpr ⟨k, rfl, rfl, rfl⟩,
      ?_, by simp, rfl⟩
    rw [parses_cat_iff]
    refine ⟨_, [], 0, o, 0, (parses_del_iff σ _ _ _ _ _).mpr ⟨rfl, rfl, rfl⟩, ?_, by simp, rfl⟩
    rw [parses_cat_iff]
    refine ⟨_, o, 0, [], 0,
      (parses_plus1_notQuote_iff σ _ _ _ _).mpr ⟨o, hne, hq, rfl, rfl, rfl⟩,
      (parses_del_iff σ _ _ _ _ _).mpr ⟨rfl, rfl, rfl⟩, by simp, rfl⟩

theorem lc_quote : lc "\"" = ['"'] := rfl

theorem lc_de (m : List Char) : [' '] ++ (lc "de" ++ ([' '] ++ m)) = lc " de " ++ m := rfl

theorem parses_preserveBranch_iff (σ : GramSem α) (i r o : List Char) (w : ℤ) :
    Parses σ preserveBranch i r o w ↔
      ∃ k1 k2, i = lc "preserve_order:" ++ (List.replicate k1 ' ' ++ (lc "true" ++
        (List.replicate k2 ' ' ++ r))) ∧ o = [] ∧ w = 0 := by
  show Parses σ (.cat (.del (lc "preserve_order:")) (.cat delete_space
    (.cat (.del (lc "true")) delete_space))) i r o w ↔ _
  rw [parses_cat_iff]
  constructor
  · rintro ⟨r1, o1, w1, o2, w2, h1, h2, rfl, rfl⟩
    obtain ⟨rfl, rfl, rfl⟩ := (parses_del_iff σ _ _ _ _ _).mp h1
    rw [parses_cat_iff] at h2
    obtain ⟨r2, o3, w3, o4, w4, h3, h4, rfl, rfl⟩ := h2
    obtain ⟨k1, rfl, rfl, rfl⟩ := (parses_delete_space_iff σ _ _ _ _).mp h3
    rw [parses_cat_iff] at h4
    obtain ⟨r3, o5, w5, o6, w6, h5, h6, rfl, rfl⟩ := h4
    obtain ⟨rfl, rfl, rfl⟩ := (parses_del_iff σ _ _ _ _ _).mp h5
    obtain ⟨k2, rfl, rfl, rfl⟩ := (parses_delete_space_iff σ _ _ _ _).mp h6
    exact ⟨k1, k2, by simp, rfl, by ring⟩
  · rintro ⟨k1, k2, rfl, rfl, rfl⟩
    refine ⟨_, [], 0, [], 0, (parses_del_iff σ _ _ _ _ _).mpr ⟨rfl, rfl, rfl⟩, ?_, rfl, by ring⟩
    rw [parses_cat_iff]
    refine ⟨_, [], 0, [], 0, (parses_delete_space_iff σ _ _ _ _).mpr ⟨k1, rfl, rfl, rfl⟩,
      ?_, rfl, by ring⟩
    rw [parses_cat_iff]
    exact ⟨_, [], 0, [], 0, (parses_del_iff σ _ _ _ _ _).mpr ⟨rfl, rfl, rfl⟩,
      (parses_delete_space_iff σ _ _ _ _).mpr ⟨k2, rfl, rfl, rfl⟩, rfl, by ring⟩

theorem parses_fieldOrderBranch_iff (σ : GramSem α) (i r o : List Char) (w : ℤ) :
    Parses σ fieldOrderBranch i r o w ↔
      ∃ c k1 k2, c ≠ '"' ∧
        i = lc "field_order:" ++ (List.replicate k1 ' ' ++ ('"' :: c :: '"' ::
          (List.replicate k2 ' ' ++ r))) ∧ o = [c] ∧ w = 0 := by
  show Parses σ (.cat (.del (lc "field_order:")) (.cat delete_space
    (.cat (.del (lc "\"")) (.cat (.sym _) (.cat (.del (lc "\"")) delete_space))))) i r o w ↔ _
  rw [parses_cat_iff]
  constructor
  · rintro ⟨r1, o1, w1, o2, w2, h1, h2, rfl, rfl⟩
    obtain ⟨rfl, rfl, rfl⟩ := (parses_del_iff σ _ _ _ _ _).mp h1
    rw [parses_cat_iff] at h2
    obtain ⟨r2, o3, w3, o4, w4, h3, h4, rfl, rfl⟩ := h2
    obtain ⟨k1, rfl, rfl, rfl⟩ := (parses_delete_space_iff σ _ _ _ _).mp h3
    rw [parses_cat_iff] at h4
    obtain ⟨r3, o5, w5, o6, w6, h5, h6, rfl, rfl⟩ := h4
    obtain ⟨rfl, rfl, rfl⟩ := (parses_del_iff σ _ _ _ _ _).mp h5
    rw [parses_cat_iff] at h6
    obtain ⟨r4, o7, w7, o8, w8, h7, h8, rfl, rfl⟩ := h6
    obtain ⟨c, rfl, hpc, rfl, rfl⟩ := (parses_sym_iff σ _ _ _ _ _).mp h7
    rw [parses_cat_iff] at h8
    obtain ⟨r5, o9, w9, o10, w10, h9, h10, rfl, rfl⟩ := h8
    obtain ⟨rfl, rfl, rfl⟩ := (parses_del_iff σ _ _ _ _ _).mp h9
    obtain ⟨k2, rfl, rfl, rfl⟩ := (parses_delete_space_iff σ _ _ _ _).mp h10
    refine ⟨c, k1, k2, by simpa using hpc, ?_, rfl, by ring⟩
    simp [lc_quote]
  · rintro ⟨c, k1, k2, hcq, rfl, rfl, rfl⟩
    refine ⟨List.replicate k1 ' ' ++ ('"' :: c :: '"' :: (List.replicate k2 ' ' ++ r)),
      [], 0, [c], 0, (parses_del_iff σ _ _ _ _ _).mpr ⟨rfl, rfl, rfl⟩, ?_, rfl, by ring⟩
    rw [parses_cat_iff]
    refine ⟨'"' :: c :: '"' :: (List.replicate k2 ' ' ++ r), [], 0, [c], 0,
      (parses_delete_space_iff σ _ _ _ _).mpr ⟨k1, rfl, rfl, rfl⟩, ?_, rfl, by ring⟩
    rw [parses_cat_iff]
    refine ⟨c :: '"' :: (List.replicate k2 ' ' ++ r), [], 0, [c], 0,
      (parses_del_iff σ _ _ _ _ _).mpr ⟨by rw [lc_quote]; rfl, rfl, rfl⟩, ?_, rfl, by ring⟩
    rw [parses_cat_iff]
    refine ⟨'"' :: (List.replicate k2 ' ' ++ r), [c], 0, [], 0,
      (parses_sym_iff σ _ _ _ _ _).mpr ⟨c, rfl, by simpa using hcq, rfl, rfl⟩, ?_, rfl, by ring⟩
    rw [parses_cat_iff]
    exact ⟨List.replicate k2 ' ' ++ r, [], 0, [], 0,
      (parses_del_iff σ _ _ _ _ _).mpr ⟨by rw [lc_quote]; rfl, rfl, rfl⟩,
      (parses_delete_space_iff σ _ _ _ _).mpr ⟨k2, rfl, rfl, rfl⟩, rfl, by ring⟩

theorem parses_opo_iff (σ : GramSem α) (i r o : List Char) (w : ℤ) :
    Parses σ optional_preserve_order i r o w ↔
      ∃ t, i = t ++ r ∧ MarkerSeq t o ∧ w = 0 := by
  show Parses σ (.star (.alt preserveBranch fieldOrderBranch)) i r o w ↔ _
  rw [parses_star_iff]
  constructor
  · intro h
    induction h with
    | nil j => exact ⟨[], by simp, MarkerSeq.nil, rfl⟩
    | cons hp hlt htail ih =>
      rename_i i2 m r2 o1 w1 o2 w2
      obtain ⟨t, rfl, hms, hw2⟩ := ih
      rcases (parses_alt_iff σ _ _ _ _ _ _).mp hp with hb | hb
      · obtain ⟨k1, k2, hi, rfl, rfl⟩ := (parses_preserveBranch_iff σ _ _ _ _).mp hb
        refine ⟨lc "preserve_order:" ++ List.replicate k1 ' ' ++ lc "true" ++
          List.replicate k2 ' ' ++ t, ?_, ?_, by simp [hw2]⟩
        · rw [hi]; simp
        · simpa using MarkerSeq.preserve k1 k2 hms
      · obtain ⟨c, k1, k2, hcq, hi, rfl, rfl⟩ := (parses_fieldOrderBranch_iff σ _ _ _ _).mp hb
        refine ⟨lc "field_order:" ++ List.replicate k1 ' ' ++
          ('"' :: c :: '"' :: (List.replicate k2 ' ' ++ t)), ?_, ?_, by simp [hw2]⟩
        · rw [hi]; simp
        · simpa using MarkerSeq.field c k1 k2 hcq hms
  · rintro ⟨t, rfl, hms, rfl⟩
    induction hms with
    | nil => simpa using Chain.nil r
    | preserve k1 k2 hms2 ih =>
      rename_i t2 o2
      have hstep : Parses σ (.alt preserveBranch fieldOrderBranch)
          ((lc "preserve_order:" ++ List.replicate k1 ' ' ++ lc "true" ++
            List.replicate k2 ' ' ++ t2) ++ r) (t2 ++ r) [] 0 :=
        (parses_alt_iff σ _ _ _ _ _ _).mpr (Or.inl
          ((parses_preserveBranch_iff σ _ _ _ _).mpr ⟨k1, k2, by simp, rfl, rfl⟩))
      have hgate : (t2 ++ r).length <
          ((lc "preserve_order:" ++ List.replicate k1 ' ' ++ lc "true" ++
            List.replicate k2 ' ' ++ t2) ++ r).length := by
        simp only [List.length_append]
        have h15 : (lc "preserve_order:").length = 15 := rfl
        omega
      exact chain_cast (Chain.cons hstep hgate ih) (by simp) (by ring)
    | field c k1 k2 hcq hms2 ih =>
      rename_i t2 o2
      have hstep : Parses σ (.alt preserveBranch fieldOrderBranch)
          ((lc "field_order:" ++ List.replicate k1 ' ' ++
            ('"' :: c :: '"' :: (List.replicate k2 ' ' ++ t2))) ++ r) (t2 ++ r) [c] 0 :=
        (parses_alt_iff σ _ _ _ _ _ _).mpr (Or.inr
          ((parses_fieldOrderBranch_iff σ _ _ _ _).mpr ⟨c, k1, k2, hcq, by simp, rfl, rfl⟩))
      have hgate : (t2 ++ r).length <
          ((lc "field_order:" ++ List.replicate k1 ' ' ++
            ('"' :: c :: '"' :: (List.replicate k2 ' ' ++ t2))) ++ r).length := by
        simp only [List.length_append, List.length_cons]
        omega
      exact chain_cast (Chain.cons hstep hgate ih) (by simp) (by ring)

theorem parses_graph_dm_iff (σ : GramSem α) (i r o : List Char) (w : ℤ) :
    Parses σ graph_dm i r o w ↔
      ∃ k1 d g k2 m, d ≠ [] ∧ (∀ c ∈ d, c ≠ '"') ∧ m ≠ [] ∧ (∀ c ∈ m, c ≠ '"') ∧ 1 ≤ g ∧
        i = lc "day:" ++ (List.replicate k1 ' ' ++ (lc "\"" ++ (d ++ (lc "\"" ++
          (List.replicate g ' ' ++ (lc "month:" ++ (List.replicate k2 ' ' ++ (lc "\"" ++
          (m ++ (lc "\"" ++ r)))))))))) ∧
        o = d ++ (lc " de " ++ m) ∧ w = 0 := by
  show Parses σ (.cat dateDay (.cat delete_extra_space
    (.cat (.ins (lc "de")) (.cat insert_space dateMonth)))) i r o w ↔ _
  rw [parses_cat_iff]
  constructor
  · rintro ⟨r1, o1, w1, o2, w2, h1, h2, rfl, rfl⟩
    obtain ⟨k1, d, hdne, hdq, rfl, rfl, rfl⟩ := (parses_fieldExt_iff σ "day:" _ _ _ _).mp h1
    rw [parses_cat_iff] at h2
    obtain ⟨r2, o3, w3, o4, w4, h3, h4, rfl, rfl⟩ := h2
    obtain ⟨g, hg, rfl, rfl, rfl⟩ := (parses_delete_extra_space_iff σ _ _ _ _).mp h3
    rw [parses_cat_iff] at h4
    obtain ⟨r3, o5, w5, o6, w6, h5, h6, rfl, rfl⟩ := h4
    obtain ⟨rfl, rfl, rfl⟩ := (parses_ins_iff σ _ _ _ _ _).mp h5
    rw [parses_cat_iff] at h6
    obtain ⟨r4, o7, w7, o8, w8, h7, h8, rfl, rfl⟩ := h6
    obtain ⟨rfl, rfl, rfl⟩ := (parses_ins_iff σ _ _ _ _ _).mp h7
    obtain ⟨k2, m, hmne, hmq, rfl, rfl, rfl⟩ := (parses_fieldExt_iff σ "month:" _ _ _ _).mp h8
    refine ⟨k1, o1, g, k2, o8, hdne, hdq, hmne, hmq, hg, by simp, ?_, by ring⟩
    rw [← lc_de]
  · rintro ⟨k1, d, g, k2, m, hdne, hdq, hmne, hmq, hg, rfl, rfl, rfl⟩
    refine ⟨List.replicate g ' ' ++ (lc "month:" ++ (List.replicate k2 ' ' ++ (lc "\"" ++
        (m ++ (lc "\"" ++ r))))), d, 0, lc " de " ++ m, 0,
      (parses_fieldExt_iff σ "day:" _ _ _ _).mpr ⟨k1, d, hdne, hdq, by simp, rfl, rfl⟩,
      ?_, rfl, by ring⟩
    rw [parses_cat_iff]
    refine ⟨lc "month:" ++ (List.replicate k2 ' ' ++ (lc "\"" ++ (m ++ (lc "\"" ++ r)))),
      [' '], 0, lc "de" ++ ([' '] ++ m), 0,
      (parses_delete_extra_space_iff σ _ _ _ _).mpr ⟨g, hg, rfl, rfl, rfl⟩, ?_, ?_, by ring⟩
    · rw [parses_cat_iff]
      refine ⟨lc "month:" ++ (List.replicate k2 ' ' ++ (lc "\"" ++ (m ++ (lc "\"" ++ r)))),
        lc "de", 0, [' '] ++ m, 0, (parses_ins_iff σ _ _ _ _ _).mpr ⟨rfl, rfl, rfl⟩,
        ?_, rfl, by ring⟩
      rw [parses_cat_iff]
      exact ⟨lc "month:" ++ (List.replicate k2 ' ' ++ (lc "\"" ++ (m ++ (lc "\"" ++ r)))),
        [' '], 0, m, 0, (parses_ins_iff σ _ _ _ _ _).mpr ⟨rfl, rfl, rfl⟩,
        (parses_fieldExt_iff σ "month:" _ _ _ _).mpr ⟨k2, m, hmne, hmq, by simp, rfl, rfl⟩,
        rfl, by ring⟩
    · rw [← lc_de]

/-- The full characterization of the date verbalizer transducer: it
parses exactly the tokens `date \x7b day: "d" month: "m" markers \x7d`
with non-empty quote-free day and month values in that fixed order, at
least one space between the two fields, and a sequence of
preserve_order / field_order markers; the output is the day value, a
single space, the literal `de`, a single space, the month value, and
the characters carried by field_order markers. -/
theorem parses_dateVerb_iff (σ : GramSem α) (i r o : List Char) (w : ℤ) :
    Parses σ dateVerbFst i r o w ↔
      ∃ k0 k1 d g k2 m k3 t mo k4,
        d ≠ [] ∧ (∀ c ∈ d, c ≠ '"') ∧ m ≠ [] ∧ (∀ c ∈ m, c ≠ '"') ∧ 1 ≤ g ∧
        MarkerSeq t mo ∧
        i = lc "date \x7b" ++ (List.replicate k0 ' ' ++ (lc "day:" ++ (List.replicate k1 ' ' ++
          (lc "\"" ++ (d ++ (lc "\"" ++ (List.replicate g ' ' ++ (lc "month:" ++
          (List.replicate k2 ' ' ++ (lc "\"" ++ (m ++ (lc "\"" ++ (List.replicate k3 ' ' ++
          (t ++ (List.replicate k4 ' ' ++ (lc "\x7d" ++ r)))))))))))))))) ∧
        o = d ++ (lc " de " ++ (m ++ mo)) ∧ w = 0 := by
  have h0 : Parses σ dateVerbFst i r o w ↔
      Parses σ (delete_tokens "date" date_final_graph) i r o w :=
    optimize_preserves σ (delete_tokens "date" date_final_graph) i r o w
  rw [h0]
  show Parses σ (.cat (.del (lc ("date" ++ " \x7b"))) (.cat delete_space
    (.cat (.cat graph_dm (.cat delete_space optional_preserve_order))
      (.cat delete_space (.del (lc "\x7d")))))) i r o w ↔ _
  rw [parses_cat_iff]
  constructor
  · rintro ⟨r1, o1, w1, o2, w2, h1, h2, rfl, rfl⟩
    obtain ⟨rfl, rfl, rfl⟩ := (parses_del_iff σ _ _ _ _ _).mp h1
    rw [parses_cat_iff] at h2
    obtain ⟨r2, o3, w3, o4, w4, h3, h4, rfl, rfl⟩ := h2
    obtain ⟨k0, rfl, rfl, rfl⟩ := (parses_delete_space_iff σ _ _ _ _).mp h3
    rw [parses_cat_iff] at h4
    obtain ⟨r3, o5, w5, o6, w6, h5, h6, rfl, rfl⟩ := h4
    rw [parses_cat_iff] at h5
    obtain ⟨r4, o7, w7, o8, w8, h7, h8, rfl, rfl⟩ := h5
    obtain ⟨k1, d, g, k2, m, hdne, hdq, hmne, hmq, hg, rfl, rfl, rfl⟩ :=
      (parses_graph_dm_iff σ _ _ _ _).mp h7
    rw [parses_cat_iff] at h8
    obtain ⟨r5, o9, w9, o10, w10, h9, h10, rfl, rfl⟩ := h8
    obtain ⟨k3, rfl, rfl, rfl⟩ := (parses_delete_space_iff σ _ _ _ _).mp h9
    obtain ⟨t, rfl, hms, rfl⟩ := (parses_opo_iff σ _ _ _ _).mp h10
    rw [parses_cat_iff] at h6
    obtain ⟨r6, o11, w11, o12, w12, h11, h12, rfl, rfl⟩ := h6
    obtain ⟨k4, rfl, rfl, rfl⟩ := (parses_delete_space_iff σ _ _ _ _).mp h11
    obtain ⟨rfl, rfl, rfl⟩ := (parses_del_iff σ _ _ _ _ _).mp h12
    exact ⟨k0, k1, d, g, k2, m, k3, t, o10, k4, hdne, hdq, hmne, hmq, hg, hms,
      by simp, by simp, by ring⟩
  · rintro ⟨k0, k1, d, g, k2, m, k3, t, mo, k4, hdne, hdq, hmne, hmq, hg, hms, rfl, rfl, rfl⟩
    refine ⟨List.replicate k0 ' ' ++ (lc "day:" ++ (List.replicate k1 ' ' ++
        (lc "\"" ++ (d ++ (lc "\"" ++ (List.replicate g ' ' ++ (lc "month:" ++
        (List.replicate k2 ' ' ++ (lc "\"" ++ (m ++ (lc "\"" ++ (List.replicate k3 ' ' ++
        (t ++ (List.replicate k4 ' ' ++ (lc "\x7d" ++ r))))))))))))))),
      [], 0, d ++ (lc " de " ++ (m ++ mo)), 0,
      (parses_del_iff σ _ _ _ _ _).mpr ⟨rfl, rfl, rfl⟩, ?_, by simp, by ring⟩
    rw [parses_cat_iff]
    refine ⟨lc "day:" ++ (List.replicate k1 ' ' ++ (lc "\"" ++ (d ++ (lc "\"" ++
        (List.replicate g ' ' ++ (lc "month:" ++ (List.replicate k2 ' ' ++ (lc "\"" ++
        (m ++ (lc "\"" ++ (List.replicate k3 ' ' ++ (t ++ (List.replicate k4 ' ' ++
        (lc "\x7d" ++ r)))))))))))))),
      [], 0, d ++ (lc " de " ++ (m ++ mo)), 0,
      (parses_delete_space_iff σ _ _ _ _).mpr ⟨k0, rfl, rfl, rfl⟩, ?_, by simp, by ring⟩
    rw [parses_cat_iff]
    refine ⟨List.replicate k4 ' ' ++ (lc "\x7d" ++ r), d ++ (lc " de " ++ (m ++ mo)), 0,
      [], 0, ?_, ?_, by simp, by ring⟩
    · rw [parses_cat_iff]
      refine ⟨List.replicate k3 ' ' ++ (t ++ (List.replicate k4 ' ' ++ (lc "\x7d" ++ r))),
        d ++ (lc " de " ++ m), 0, mo, 0,
        (parses_graph_dm_iff σ _ _ _ _).mpr
          ⟨k1, d, g, k2, m, hdne, hdq, hmne, hmq, hg, rfl, rfl, rfl⟩, ?_, by simp, by ring⟩
      rw [parses_cat_iff]
      exact ⟨t ++ (List.replicate k4 ' ' ++ (lc "\x7d" ++ r)), [], 0, mo, 0,
        (parses_delete_space_iff σ _ _ _ _).mpr ⟨k3, rfl, rfl, rfl⟩,
        (parses_opo_iff σ _ _ _ _).mpr ⟨t, by simp, hms, rfl⟩, rfl, by ring⟩
    · rw [parses_cat_iff]
      exact ⟨lc "\x7d" ++ r, [], 0, [], 0,
        (parses_delete_space_iff σ _ _ _ _).mpr ⟨k4, rfl, rfl, rfl⟩,
        (parses_del_iff σ _ _ _ _ _).mpr ⟨rfl, rfl, rfl⟩, rfl, by ring⟩

theorem noQuote_append {a b : List Char} (ha : NoQuote a) (hb : NoQuote b) :
    NoQuote (a ++ b) := by
  intro c hc
  rcases List.mem_append.mp hc with h | h
  · exact ha c h
  · exact hb c h

theorem noQuote_replicate (k : ℕ) : NoQuote (List.replicate k ' ') := by
  intro c hc
  rw [List.eq_of_mem_replicate hc]
  decide

/-- Splitting at the first quote: quote-free prefixes of a common list
ending at a quote coincide. -/
theorem quote_anchor : ∀ {u1 t1 u2 t2 : List Char},
    u1 ++ '"' :: t1 = u2 ++ '"' :: t2 → NoQuote u1 → NoQuote u2 → u1 = u2 ∧ t1 = t2 := by
  intro u1
  induction u1 with
  | nil =>
    intro t1 u2 t2 h h1 h2
    cases u2 with
    | nil => simpa using h
    | cons c u2 =>
      simp only [List.nil_append, List.cons_append, List.cons.injEq] at h
      exact absurd h.1.symm (h2 c (by simp))
  | cons c u1 ih =>
    intro t1 u2 t2 h h1 h2
    cases u2 with
    | nil =>
      simp only [List.cons_append, List.nil_append, List.cons.injEq] at h
      exact absurd h.1 (h1 c (by simp))
    | cons c2 u2 =>
      simp only [List.cons_append, List.cons.injEq] at h
      obtain ⟨rfl, h⟩ := h
      obtain ⟨rfl, ht⟩ := ih h (fun x hx => h1 x (by simp [hx])) (fun x hx => h2 x (by simp [hx]))
      exact ⟨rfl, ht⟩

/-- Splitting a space run against a space run: with non-space heads on
both tails, the runs and tails coincide. -/
theorem spaces_anchor : ∀ {k1 k2 : ℕ} {c1 c2 : Char} {X Y : List Char},
    c1 ≠ ' ' → c2 ≠ ' ' →
    List.replicate k1 ' ' ++ c1 :: X = List.replicate k2 ' ' ++ c2 :: Y →
    k1 = k2 ∧ c1 = c2 ∧ X = Y := by
  intro k1
  induction k1 with
  | zero =>
    intro k2 c1 c2 X Y h1 h2 h
    cases k2 with
    | zero => simpa using h
    | succ k2 =>
      simp only [List.replicate_succ, List.replicate_zero, List.nil_append, List.cons_append,
        List.cons.injEq] at h
      exact absurd h.1 h1
  | succ k1 ih =>
    intro k2 c1 c2 X Y h1 h2 h
    cases k2 with
    | zero =>
      simp only [List.replicate_succ, List.replicate_zero, List.cons_append, List.nil_append,
        List.cons.injEq] at h
      exact absurd h.1.symm h2
    | succ k2 =>
      simp only [List.replicate_succ, List.cons_append, List.cons.injEq] at h
      obtain ⟨k12, hc, hXY⟩ := ih h1 h2 h.2
      exact ⟨by omega, hc, hXY⟩

theorem parses_plus1_sym_iff (σ : GramSem α) (p : Char → Bool) (i r o : List Char) (w : ℤ) :
    Parses σ (plus1 (.sym p)) i r o w ↔
      ∃ d, d ≠ [] ∧ (∀ c ∈ d, p c = true) ∧ i = d ++ r ∧ o = d ∧ w = 0 := by
  show Parses σ (.cat (.sym p) (.star (.sym p))) i r o w ↔ _
  rw [parses_cat_iff]
  constructor
  · rintro ⟨r1, o1, w1, o2, w2, h1, h2, rfl, rfl⟩
    obtain ⟨c, rfl, hpc, rfl, rfl⟩ := (parses_sym_iff σ _ _ _ _ _).mp h1
    obtain ⟨d, hd, rfl, rfl, rfl⟩ := (parses_star_sym_iff σ _ _ _ _ _).mp h2
    refine ⟨c :: o2, by simp, ?_, by simp, rfl, by ring⟩
    intro c2 hc2
    rcases List.mem_cons.mp hc2 with rfl | hc2
    · exact hpc
    · exact hd c2 hc2
  · rintro ⟨d, hne, hq, rfl, rfl, rfl⟩
    cases o with
    | nil => exact absurd rfl hne
    | cons c d =>
      exact ⟨d ++ r, [c], 0, d, 0,
        (parses_sym_iff σ _ _ _ _ _).mpr ⟨c, by simp, hq c (by simp), rfl, rfl⟩,
        (parses_star_sym_iff σ _ _ _ _ _).mpr
          ⟨d, fun c2 hc2 => hq c2 (List.mem_cons_of_mem c hc2), rfl, rfl, rfl⟩,
        rfl, rfl⟩

/-- C10: the date verbalizer accepts only tokens containing both a day
field and a month field, with non-empty quoted quote-free values, in
the fixed order day-then-month (followed by an optional marker
sequence).  Every accepted token decomposes this way, so a tagged date
token missing either field, with an empty field value, or with the
month field preceding the day field has no accepting path. -/
theorem c10_date_verbalizer_domain (i o : List Char) (w : ℤ)
    (h : Accepts noGram dateVerbFst i o w) :
    ∃ k0 k1 d g k2 m k3 t mo k4,
      d ≠ [] ∧ NoQuote d ∧ m ≠ [] ∧ NoQuote m ∧ 1 ≤ g ∧ MarkerSeq t mo ∧
      i = lc "date \x7b" ++ (List.replicate k0 ' ' ++ (lc "day:" ++ (List.replicate k1 ' ' ++
        (lc "\"" ++ (d ++ (lc "\"" ++ (List.replicate g ' ' ++ (lc "month:" ++
        (List.replicate k2 ' ' ++ (lc "\"" ++ (m ++ (lc "\"" ++ (List.replicate k3 ' ' ++
        (t ++ (List.replicate k4 ' ' ++ lc "\x7d"))))))))))))))) ∧
      o = d ++ (lc " de " ++ (m ++ mo)) ∧ w = 0 := by
  obtain ⟨k0, k1, d, g, k2, m, k3, t, mo, k4, hdne, hdq, hmne, hmq, hg, hms, hi, ho, hw⟩ :=
    (parses_dateVerb_iff noGram i [] o w).mp h
  exact ⟨k0, k1, d, g, k2, m, k3, t, mo, k4, hdne, hdq, hmne, hmq, hg, hms,
    by simpa using hi, ho, hw⟩

/-- Witness for C10: the Example 1 token is accepted and decomposes. -/
theorem c10_date_verbalizer_domain_witness :
    Accepts noGram dateVerbFst c1Input c1Out 0 ∧
      ∃ k0 k1 d g k2 m k3 t mo k4,
        d ≠ [] ∧ NoQuote d ∧ m ≠ [] ∧ NoQuote m ∧ 1 ≤ g ∧ MarkerSeq t mo ∧
        c1Input = lc "date \x7b" ++ (List.replicate k0 ' ' ++ (lc "day:" ++
          (List.replicate k1 ' ' ++ (lc "\"" ++ (d ++ (lc "\"" ++ (List.replicate g ' ' ++
          (lc "month:" ++ (List.replicate k2 ' ' ++ (lc "\"" ++ (m ++ (lc "\"" ++
          (List.replicate k3 ' ' ++ (t ++ (List.replicate k4 ' ' ++ lc "\x7d"))))))))))))))) ∧
        c1Out = d ++ (lc " de " ++ (m ++ mo)) ∧ (0 : ℤ) = 0 := by
  have hacc : Accepts noGram dateVerbFst c1Input c1Out 0 :=
    (accepts_iff_mem_fullRuns noGram dateVerbFst c1Input c1Out 0).mpr (by decide)
  exact ⟨hacc, c10_date_verbalizer_domain c1Input c1Out 0 hacc⟩

/-- C3 counterexample: the tagged date token carrying both a
preserve_order marker and a field_order marker is accepted by the date
verbalizer (producing `1 de enerod`), not rejected. -/
theorem c3_both_markers_accepted :
    Accepts noGram dateVerbFst (c3Input 'd') (lc "1 de enerod") 0 :=
  (accepts_iff_mem_fullRuns noGram dateVerbFst (c3Input 'd') (lc "1 de enerod") 0).mpr
    (by decide)

/-- C3 amended: a tagged date token carrying both a preserve_order
marker and a field_order marker is accepted, because
`optional_preserve_order` is a closure over the two marker
alternatives; the field_order character is copied into the output. -/
theorem c3_amended_both_markers (c : Char) (hc : c ≠ '"') :
    Accepts noGram dateVerbFst (c3Input c) (lc "1 de enero" ++ [c]) 0 := by
  apply (parses_dateVerb_iff noGram (c3Input c) [] (lc "1 de enero" ++ [c]) 0).mpr
  exact ⟨1, 1, ['1'], 1, 1, lc "enero", 1, _, [c], 0,
    by decide, by decide, by decide, by decide, by decide,
    MarkerSeq.preserve 1 1 (MarkerSeq.field c 1 1 hc MarkerSeq.nil), rfl, rfl, rfl⟩

/-- Witness for the C3 amended theorem at the character `x`. -/
theorem c3_amended_both_markers_witness :
    ('x' ≠ '"') ∧ Accepts noGram dateVerbFst (c3Input 'x') (lc "1 de enero" ++ ['x']) 0 :=
  ⟨by decide, c3_amended_both_markers 'x' (by decide)⟩

theorem quote_anchor_cons {c : Char} {t1 u t2 : List Char}
    (h : c :: '"' :: t1 = u ++ '"' :: t2) (hc : c ≠ '"') (hu : NoQuote u) :
    u = [c] ∧ t1 = t2 := by
  have h2 : [c] ++ '"' :: t1 = u ++ '"' :: t2 := by simpa using h
  obtain ⟨h3, h4⟩ := quote_anchor h2 (by intro x hx; simp at hx; simpa [hx] using hc) hu
  exact ⟨h3.symm, h4⟩

theorem quote_anchor2R {u t1 a b t2 : List Char}
    (h : u ++ '"' :: t1 = a ++ (b ++ '"' :: t2))
    (hu : NoQuote u) (ha : NoQuote a) (hb : NoQuote b) : u = a ++ b ∧ t1 = t2 := by
  have h2 : u ++ '"' :: t1 = (a ++ b) ++ '"' :: t2 := by rw [List.append_assoc]; exact h
  exact quote_anchor h2 hu (noQuote_append ha hb)

theorem quote_anchorR3 {u t1 a b c t2 : List Char}
    (h : u ++ '"' :: t1 = a ++ (b ++ (c ++ '"' :: t2)))
    (hu : NoQuote u) (ha : NoQuote a) (hb : NoQuote b) (hc : NoQuote c) :
    u = a ++ (b ++ c) ∧ t1 = t2 := by
  have h2 : u ++ '"' :: t1 = ((a ++ b) ++ c) ++ '"' :: t2 := by
    simp only [List.append_assoc]
    exact h
  obtain ⟨h3, h4⟩ := quote_anchor h2 hu (noQuote_append (noQuote_append ha hb) hc)
  refine ⟨?_, h4⟩
  rw [h3]
  simp [List.append_assoc]

theorem quote_anchorR4 {u t1 a b c d2 t2 : List Char}
    (h : u ++ '"' :: t1 = a ++ (b ++ (c ++ (d2 ++ '"' :: t2))))
    (hu : NoQuote u) (ha : NoQuote a) (hb : NoQuote b) (hc : NoQuote c) (hd : NoQuote d2) :
    u = a ++ (b ++ (c ++ d2)) ∧ t1 = t2 := by
  have h2 : u ++ '"' :: t1 = (((a ++ b) ++ c) ++ d2) ++ '"' :: t2 := by
    simp only [List.append_assoc]
    exact h
  obtain ⟨h3, h4⟩ := quote_anchor h2 hu
    (noQuote_append (noQuote_append (noQuote_append ha hb) hc) hd)
  refine ⟨?_, h4⟩
  rw [h3]
  simp [List.append_assoc]

theorem space_cons_anchor {c1 : Char} {X : List Char} {k2 : ℕ} {c2 : Char} {Y : List Char}
    (h1 : c1 ≠ ' ') (h2 : c2 ≠ ' ')
    (h : ' ' :: c1 :: X = List.replicate k2 ' ' ++ c2 :: Y) :
    k2 = 1 ∧ c1 = c2 ∧ X = Y := by
  have h3 : List.replicate 1 ' ' ++ c1 :: X = List.replicate k2 ' ' ++ c2 :: Y := by
    simpa using h
  obtain ⟨hk, hc, hXY⟩ := spaces_anchor h1 h2 h3
  exact ⟨hk.symm, hc, hXY⟩

theorem c9Input_expand (v : List Char) :
    c9Input v = lc "date \x7b day: " ++ '"' :: ('1' :: '"' :: (lc " month: " ++
      ('"' :: (lc "enero" ++ ('"' :: (lc " field_order: " ++
      ('"' :: (v ++ ('"' :: lc " \x7d"))))))))) := rfl

theorem lc_preserve_expand : lc "preserve_order:" = 'p' :: lc "reserve_order:" := rfl

theorem lc_field_expand : lc "field_order:" = 'f' :: lc "ield_order:" := rfl

theorem lc_fieldsp_expand : lc " field_order: " = ' ' :: 'f' :: lc "ield_order: " := rfl

theorem lc_spbrace : lc " \x7d" = ' ' :: '}' :: [] := rfl

theorem c9_forward (v : List Char) (hv : NoQuote v) (o : List Char) (w : ℤ)
    (h : Accepts noGram dateVerbFst (c9Input v) o w) :
    ∃ c, v = [c] ∧ o = lc "1 de enero" ++ [c] ∧ w = 0 := by
  obtain ⟨k0, k1, d, g, k2, m, k3, t, mo, k4, hdne, hdq, hmne, hmq, hg, hms, hi, ho, hw⟩ :=
    (parses_dateVerb_iff noGram (c9Input v) [] o w).mp h
  rw [c9Input_expand] at hi
  simp only [lc_quote, List.append_nil, List.append_assoc, List.cons_append,
    List.singleton_append, List.nil_append] at hi
  have hnq1 : NoQuote (lc "date \x7b day: ") := by decide
  obtain ⟨hu1, hT1⟩ := quote_anchorR4 hi hnq1 (by decide) (noQuote_replicate k0)
    (by decide) (noQuote_replicate k1)
  obtain ⟨hd1, hT2⟩ := quote_anchor_cons hT1 (by decide) hdq
  obtain ⟨hu2, hT3⟩ := quote_anchorR3 hT2 (by decide) (noQuote_replicate g)
    (by decide) (noQuote_replicate k2)
  obtain ⟨hm1, hT4⟩ := quote_anchor hT3 (by decide) hmq
  cases hms with
  | nil =>
    simp only [List.nil_append] at hT4
    have hqmem : ('"' : Char) ∈ List.replicate k3 ' ' ++ (List.replicate k4 ' ' ++ lc "\x7d") := by
      rw [← hT4]; simp
    have hnq : NoQuote (List.replicate k3 ' ' ++ (List.replicate k4 ' ' ++ lc "\x7d")) :=
      noQuote_append (noQuote_replicate k3)
        (noQuote_append (noQuote_replicate k4) (by decide))
    exact absurd rfl (hnq '"' hqmem)
  | preserve j1 j2 hms2 =>
    rw [lc_fieldsp_expand, lc_preserve_expand] at hT4
    simp only [List.cons_append, List.append_assoc] at hT4
    obtain ⟨-, hpf, -⟩ := space_cons_anchor (by decide) (by decide) hT4
    exact absurd hpf (by decide)
  | field cm j1 j2 hcm hms2 =>
    rename_i t2 mo2
    rw [lc_fieldsp_expand, lc_field_expand] at hT4
    simp only [List.cons_append, List.append_assoc] at hT4
    obtain ⟨-, -, hT5⟩ := space_cons_anchor (by decide) (by decide) hT4
    obtain ⟨-, hT6⟩ := quote_anchor2R hT5 (by decide) (by decide) (noQuote_replicate j1)
    cases v with
    | nil =>
      simp only [List.nil_append, List.cons.injEq] at hT6
      exact absurd hT6.1.symm hcm
    | cons cv v2 =>
      simp only [List.cons_append, List.cons.injEq] at hT6
      obtain ⟨rfl, hT7⟩ := hT6
      cases v2 with
      | nil =>
        simp only [List.nil_append, List.cons.injEq, true_and] at hT7
        rw [lc_spbrace] at hT7
        cases hms2 with
        | nil =>
          refine ⟨cv, rfl, ?_, hw⟩
          rw [ho, hd1, ← hm1]
          rfl
        | preserve j3 j4 hms3 =>
          rw [lc_preserve_expand] at hT7
          simp only [List.cons_append, List.append_assoc] at hT7
          obtain ⟨-, hpf, -⟩ := space_cons_anchor (by decide) (by decide) hT7
          exact absurd hpf (by decide)
        | field cm2 j3 j4 hcm2 hms3 =>
          rw [lc_field_expand] at hT7
          simp only [List.cons_append, List.append_assoc] at hT7
          obtain ⟨-, hpf, -⟩ := space_cons_anchor (by decide) (by decide) hT7
          exact absurd hpf (by decide)
      | cons cv2 v3 =>
        simp only [List.cons_append, List.cons.injEq] at hT7
        exact absurd hT7.1 (hv cv2 (by simp))

/-- C9: when a tagged date token carries a field_order marker, the date
verbalizer accepts it only if the marker's quoted (quote-free) value is
exactly one character, and that character is copied through into the
verbalized output (appended after the date text), unlike every other
marker component, which is deleted. -/
theorem c9_field_order_single_char (v : List Char) (hv : NoQuote v) :
    ((∃ o w, Accepts noGram dateVerbFst (c9Input v) o w) ↔ ∃ c, v = [c]) ∧
    (∀ o w, Accepts noGram dateVerbFst (c9Input v) o w →
      ∃ c, v = [c] ∧ o = lc "1 de enero" ++ [c] ∧ w = 0) := by
  constructor
  · constructor
    · rintro ⟨o, w, h⟩
      obtain ⟨c, hc, -, -⟩ := c9_forward v hv o w h
      exact ⟨c, hc⟩
    · rintro ⟨c, rfl⟩
      refine ⟨lc "1 de enero" ++ [c], 0, ?_⟩
      apply (parses_dateVerb_iff noGram (c9Input [c]) [] _ 0).mpr
      exact ⟨1, 1, ['1'], 1, 1, lc "enero", 1, _, [c], 0,
        by decide, by decide, by decide, by decide, by decide,
        MarkerSeq.field c 1 1 (hv c (by simp)) MarkerSeq.nil, rfl, rfl, rfl⟩
  · intro o w h
    exact c9_forward v hv o w h

/-- Witness for C9 at the single-character value `z`. -/
theorem c9_field_order_single_char_witness :
    NoQuote ['z'] ∧
    (((∃ o w, Accepts noGram dateVerbFst (c9Input ['z']) o w) ↔ ∃ c, ['z'] = [c]) ∧
     (∀ o w, Accepts noGram dateVerbFst (c9Input ['z']) o w →
       ∃ c, ['z'] = [c] ∧ o = lc "1 de enero" ++ [c] ∧ w = 0)) :=
  ⟨by decide, c9_field_order_single_char ['z'] (by decide)⟩

theorem parses_dateTagger_iff (σ : GramSem α) (i r o : List Char) (w : ℤ) :
    Parses σ dateTagger i r o w ↔
      ∃ d m, d ≠ [] ∧ (∀ c ∈ d, (c != '"' && c != ' ') = true) ∧
        m ≠ [] ∧ (∀ c ∈ m, (c != '"' && c != ' ') = true) ∧
        i = d ++ (lc " de " ++ (m ++ r)) ∧
        o = lc "date \x7b day: \"" ++ (d ++ (lc "\" month: \"" ++
          (m ++ lc "\" preserve_order: true \x7d"))) ∧ w = 0 := by
  show Parses σ (.cat (.ins (lc "date \x7b day: \"")) (.cat (plus1 (.sym _))
    (.cat (.ins (lc "\"")) (.cat (.del (lc " de "))
      (.cat (.ins (lc " month: \"")) (.cat (plus1 (.sym _))
        (.ins (lc "\" preserve_order: true \x7d")))))))) i r o w ↔ _
  rw [parses_cat_iff]
  constructor
  · rintro ⟨r1, o1, w1, o2, w2, h1, h2, rfl, rfl⟩
    obtain ⟨rfl, rfl, rfl⟩ := (parses_ins_iff σ _ _ _ _ _).mp h1
    rw [parses_cat_iff] at h2
    obtain ⟨r2, o3, w3, o4, w4, h3, h4, rfl, rfl⟩ := h2
    obtain ⟨d, hdne, hdp, rfl, rfl, rfl⟩ := (parses_plus1_sym_iff σ _ _ _ _ _).mp h3
    rw [parses_cat_iff] at h4
    obtain ⟨r3, o5, w5, o6, w6, h5, h6, rfl, rfl⟩ := h4
    obtain ⟨rfl, rfl, rfl⟩ := (parses_ins_iff σ _ _ _ _ _).mp h5
    rw [parses_cat_iff] at h6
    obtain ⟨r4, o7, w7, o8, w8, h7, h8, rfl, rfl⟩ := h6
    obtain ⟨rfl, rfl, rfl⟩ := (parses_del_iff σ _ _ _ _ _).mp h7
    rw [parses_cat_iff] at h8
    obtain ⟨r5, o9, w9, o10, w10, h9, h10, rfl, rfl⟩ := h8
    obtain ⟨rfl, rfl, rfl⟩ := (parses_ins_iff σ _ _ _ _ _).mp h9
    rw [parses_cat_iff] at h10
    obtain ⟨r6, o11, w11, o12, w12, h11, h12, rfl, rfl⟩ := h10
    obtain ⟨m, hmne, hmp, rfl, rfl, rfl⟩ := (parses_plus1_sym_iff σ _ _ _ _ _).mp h11
    obtain ⟨rfl, rfl, rfl⟩ := (parses_ins_iff σ _ _ _ _ _).mp h12
    exact ⟨o3, o11, hdne, hdp, hmne, hmp, rfl, rfl, by ring⟩
  · rintro ⟨d, m, hdne, hdp, hmne, hmp, rfl, rfl, rfl⟩
    refine ⟨d ++ (lc " de " ++ (m ++ r)), lc "date \x7b day: \"", 0,
      d ++ (lc "\" month: \"" ++ (m ++ lc "\" preserve_order: true \x7d")), 0,
      (parses_ins_iff σ _ _ _ _ _).mpr ⟨rfl, rfl, rfl⟩, ?_, rfl, by ring⟩
    rw [parses_cat_iff]
    refine ⟨lc " de " ++ (m ++ r), d, 0,
      lc "\" month: \"" ++ (m ++ lc "\" preserve_order: true \x7d"), 0,
      (parses_plus1_sym_iff σ _ _ _ _ _).mpr ⟨d, hdne, hdp, rfl, rfl, rfl⟩, ?_, rfl, by ring⟩
    rw [parses_cat_iff]
    refine ⟨lc " de " ++ (m ++ r), lc "\"", 0,
      lc " month: \"" ++ (m ++ lc "\" preserve_order: true \x7d"), 0,
      (parses_ins_iff σ _ _ _ _ _).mpr ⟨rfl, rfl, rfl⟩, ?_, rfl, by ring⟩
    rw [parses_cat_iff]
    refine ⟨m ++ r, [], 0,
      lc " month: \"" ++ (m ++ lc "\" preserve_order: true \x7d"), 0,
      (parses_del_iff σ _ _ _ _ _).mpr ⟨rfl, rfl, rfl⟩, ?_, rfl, by ring⟩
    rw [parses_cat_iff]
    refine ⟨m ++ r, lc " month: \"", 0,
      m ++ lc "\" preserve_order: true \x7d", 0,
      (parses_ins_iff σ _ _ _ _ _).mpr ⟨rfl, rfl, rfl⟩, ?_, rfl, by ring⟩
    rw [parses_cat_iff]
    exact ⟨r, m, 0, lc "\" preserve_order: true \x7d", 0,
      (parses_plus1_sym_iff σ _ _ _ _ _).mpr ⟨m, hmne, hmp, rfl, rfl, rfl⟩,
      (parses_ins_iff σ _ _ _ _ _).mpr ⟨rfl, rfl, rfl⟩, rfl, by ring⟩

/-- C7 (for the date grammar): for every surface string accepted by the
(spec-modelled) date tagger, verbalizing the tagged output succeeds, and
the verbalized surface form is itself accepted by the same tagger (here
the round trip is even the identity). -/
theorem c7_round_trip_date (s t : List Char) (w : ℤ)
    (h : Accepts noGram dateTagger s t w) :
    ∃ o w2, Accepts noGram dateVerbFst t o w2 ∧
      ∃ t2 w3, Accepts noGram dateTagger o t2 w3 := by
  obtain ⟨d, m, hdne, hdp, hmne, hmp, hs, ht, hw⟩ :=
    (parses_dateTagger_iff noGram s [] t w).mp h
  refine ⟨d ++ (lc " de " ++ (m ++ [])), 0, ?_, t, w, ?_⟩
  · apply (parses_dateVerb_iff noGram t [] _ 0).mpr
    refine ⟨1, 1, d, 1, 1, m, 1, _, [], 0, hdne, ?_, hmne, ?_, by decide,
      MarkerSeq.preserve 1 1 MarkerSeq.nil, by rw [ht]; rfl, rfl, rfl⟩
    · intro c hc
      have h2 := hdp c hc
      simp only [Bool.and_eq_true, bne_iff_ne] at h2
      exact h2.1
    · intro c hc
      have h2 := hmp c hc
      simp only [Bool.and_eq_true, bne_iff_ne] at h2
      exact h2.1
  · rw [← hs]
    exact h

/-- Witness for C7 at the surface string of spec Example 1; its tag is
exactly the Example 1 token. -/
theorem c7_round_trip_date_witness :
    Accepts noGram dateTagger (lc "1 de enero") c1Input 0 ∧
    (∃ o w2, Accepts noGram dateVerbFst c1Input o w2 ∧
      ∃ t2 w3, Accepts noGram dateTagger o t2 w3) := by
  have hacc : Accepts noGram dateTagger (lc "1 de enero") c1Input 0 :=
    (accepts_iff_mem_fullRuns noGram dateTagger (lc "1 de enero") c1Input 0).mpr (by decide)
  exact ⟨hacc, c7_round_trip_date (lc "1 de enero") c1Input 0 hacc⟩

/-- C6: on every constructed automaton, `optimize` is idempotent and
language-preserving: the doubly-optimized automaton and the optimized
automaton both accept exactly the parse relation of the original. -/
theorem c6_optimize_idempotent_preserving (σ : GramSem α) (f : Fst α)
    (i r o : List Char) (w : ℤ) :
    (Parses σ (optimize (optimize f)) i r o w ↔ Parses σ f i r o w) ∧
    (Parses σ (optimize f) i r o w ↔ Parses σ f i r o w) :=
  ⟨(optimize_preserves σ (optimize f) i r o w).trans (optimize_preserves σ f i r o w),
   optimize_preserves σ f i r o w⟩

/-- C8: the archive export writes the classifier under exactly the rule
name TOKENIZE_AND_CLASSIFY and the verbalizer archive under exactly the
rule names ALL and REDUP, with REDUP the acceptor of the literal string
REDUP, applying `optimize` to each graph immediately before writing. -/
theorem c8_export_rule_names (c v : Fst α) :
    export_grammars (itn_grammars c v) =
      [("classify", [("TOKENIZE_AND_CLASSIFY", optimize c)]),
       ("verbalize", [("ALL", optimize v), ("REDUP", optimize (Fst.cp (lc "REDUP")))])] ∧
    export_grammars (tn_grammars c v) =
      [("classify", [("TOKENIZE_AND_CLASSIFY", optimize c)]),
       ("verbalize", [("ALL", optimize v), ("REDUP", optimize (Fst.cp (lc "REDUP")))])] ∧
    (∀ (σ : GramSem α) (i o2 : List Char) (w : ℤ),
      Accepts σ (optimize (Fst.cp (lc "REDUP"))) i o2 w ↔
        i = lc "REDUP" ∧ o2 = lc "REDUP" ∧ w = 0) := by
  refine ⟨rfl, rfl, ?_⟩
  intro σ i o2 w
  show Parses σ (Fst.cp (lc "REDUP")) i [] o2 w ↔ _
  rw [parses_cp_iff]
  simp

theorem mem_fullRuns_accepts {σ : GramSem α} {f : Fst α} {i : List Char} {x : ParseOut}
    (hx : x ∈ fullRuns σ f i) : Accepts σ f i x.2.1 x.2.2 := by
  obtain ⟨hmem, hemp⟩ := List.mem_filter.mp hx
  have h1 : x.1 = [] := by simpa using hemp
  unfold Accepts Parses
  rw [← h1]
  exact hmem

theorem isMinAccept_iff (σ : GramSem α) (f : Fst α) (i o : List Char) (w : ℤ) :
    IsMinAccept σ f i o w ↔
      (([], o, w) ∈ fullRuns σ f i ∧ ∀ x ∈ fullRuns σ f i, w ≤ x.2.2) := by
  constructor
  · rintro ⟨h1, h2⟩
    refine ⟨(accepts_iff_mem_fullRuns σ f i o w).mp h1, ?_⟩
    intro x hx
    exact h2 x.2.1 x.2.2 (mem_fullRuns_accepts hx)
  · rintro ⟨h1, h2⟩
    refine ⟨(accepts_iff_mem_fullRuns σ f i o w).mpr h1, ?_⟩
    intro o2 w2 h3
    exact h2 ([], o2, w2) ((accepts_iff_mem_fullRuns σ f i o2 w2).mp h3)

theorem exists_accepts_iff (σ : GramSem α) (f : Fst α) (i : List Char) :
    (∃ o w, Accepts σ f i o w) ↔ fullRuns σ f i ≠ [] := by
  constructor
  · rintro ⟨o, w, h⟩
    exact List.ne_nil_of_mem ((accepts_iff_mem_fullRuns σ f i o w).mp h)
  · intro h
    obtain ⟨x, hx⟩ := List.exists_mem_of_ne_nil _ h
    exact ⟨x.2.1, x.2.2, mem_fullRuns_accepts hx⟩

theorem accepts_gram_full_iff (σ : GramSem α) (g : α) (i o : List Char) (w : ℤ) :
    Accepts σ (.gram g) i o w ↔ GramFull σ g i o w := by
  unfold Accepts GramFull
  rw [parses_gram_iff]
  constructor
  · rintro ⟨k, hk, hr⟩
    exact ⟨(k, o, w), hk, rfl, rfl, hr.symm⟩
  · rintro ⟨⟨k, o2, w2⟩, hx, ho, hw, hd⟩
    cases ho
    cases hw
    exact ⟨k, hx, hd.symm⟩

theorem accepts_classify_iff (σ : GramSem RuGram) (i o : List Char) (w : ℤ) :
    Accepts σ classify i o w ↔
      ∃ g w0, g ≠ RuGram.punct ∧ GramFull σ g i o w0 ∧ w = ruWeight g + w0 := by
  constructor
  · intro h
    unfold Accepts classify at h
    simp only [parses_alt_iff, parses_wt_iff] at h
    rcases h with ⟨w0,hg,hw⟩|⟨w0,hg,hw⟩|⟨w0,hg,hw⟩|⟨w0,hg,hw⟩|⟨w0,hg,hw⟩|⟨w0,hg,hw⟩|⟨w0,hg,hw⟩|⟨w0,hg,hw⟩|⟨w0,hg,hw⟩|⟨w0,hg,hw⟩|⟨w0,hg,hw⟩
    · exact ⟨.whitelist, w0, by simp, (accepts_gram_full_iff σ _ i o w0).mp hg, hw⟩
    · exact ⟨.time, w0, by simp, (accepts_gram_full_iff σ _ i o w0).mp hg, hw⟩
    · exact ⟨.date, w0, by simp, (accepts_gram_full_iff σ _ i o w0).mp hg, hw⟩
    · exact ⟨.decimal, w0, by simp, (accepts_gram_full_iff σ _ i o w0).mp hg, hw⟩
    · exact ⟨.measure, w0, by simp, (accepts_gram_full_iff σ _ i o w0).mp hg, hw⟩
    · exact ⟨.cardinal, w0, by simp, (accepts_gram_full_iff σ _ i o w0).mp hg, hw⟩
    · exact ⟨.ordinal, w0, by simp, (accepts_gram_full_iff σ _ i o w0).mp hg, hw⟩
    · exact ⟨.money, w0, by simp, (accepts_gram_full_iff σ _ i o w0).mp hg, hw⟩
    · exact ⟨.telephone, w0, by simp, (accepts_gram_full_iff σ _ i o w0).mp hg, hw⟩
    · exact ⟨.electronic, w0, by simp, (accepts_gram_full_iff σ _ i o w0).mp hg, hw⟩
    · exact ⟨.word, w0, by simp, (accepts_gram_full_iff σ _ i o w0).mp hg, hw⟩
  · rintro ⟨g, w0, hg, hfull, hw⟩
    unfold Accepts classify
    simp only [parses_alt_iff, parses_wt_iff]
    have hga : Parses σ (.gram g) i [] o w0 :=
      (accepts_gram_full_iff σ g i o w0).mpr hfull
    cases g
    · exact Or.inl ⟨w0, hga, hw⟩
    · exact Or.inr (Or.inl ⟨w0, hga, hw⟩)
    · exact Or.inr (Or.inr (Or.inl ⟨w0, hga, hw⟩))
    · exact Or.inr (Or.inr (Or.inr (Or.inl ⟨w0, hga, hw⟩)))
    · exact Or.inr (Or.inr (Or.inr (Or.inr (Or.inl ⟨w0, hga, hw⟩))))
    · exact Or.inr (Or.inr (Or.inr (Or.inr (Or.inr (Or.inl ⟨w0, hga, hw⟩)))))
    · exact Or.inr (Or.inr (Or.inr (Or.inr (Or.inr (Or.inr (Or.inl ⟨w0, hga, hw⟩))))))
    · exact Or.inr (Or.inr (Or.inr (Or.inr (Or.inr (Or.inr (Or.inr (Or.inl ⟨w0, hga, hw⟩)))))))
    · exact Or.inr (Or.inr (Or.inr (Or.inr (Or.inr (Or.inr (Or.inr (Or.inr (Or.inl ⟨w0, hga, hw⟩))))))))
    · exact Or.inr (Or.inr (Or.inr (Or.inr (Or.inr (Or.inr (Or.inr (Or.inr (Or.inr (Or.inl ⟨w0, hga, hw⟩)))))))))
    · exact Or.inr (Or.inr (Or.inr (Or.inr (Or.inr (Or.inr (Or.inr (Or.inr (Or.inr (Or.inr ⟨w0, hga, hw⟩)))))))))
    · exact absurd rfl hg

theorem minAccept_classify (σ : GramSem RuGram)
    (h0 : ∀ g i x, x ∈ σ g i → x.2.2 = 0) (i o : List Char) (w : ℤ)
    (h : IsMinAccept σ classify i o w) :
    ∃ g, g ≠ RuGram.punct ∧ GramFull σ g i o 0 ∧ w = ruWeight g ∧
      ∀ g2 o2, g2 ≠ RuGram.punct → GramFull σ g2 i o2 0 → ruWeight g ≤ ruWeight g2 := by
  obtain ⟨hacc, hmin⟩ := h
  obtain ⟨g, w0, hg, hfull, hw⟩ := (accepts_classify_iff σ i o w).mp hacc
  have hz : w0 = 0 := by
    obtain ⟨x, hx, _, hw2, _⟩ := hfull
    rw [← hw2]
    exact h0 g i x hx
  subst hz
  refine ⟨g, hg, hfull, by omega, ?_⟩
  intro g2 o2 hg2 hfull2
  have hacc2 : Accepts σ classify i o2 (ruWeight g2 + 0) :=
    (accepts_classify_iff σ i o2 _).mpr ⟨g2, 0, hg2, hfull2, rfl⟩
  have hle := hmin o2 _ hacc2
  omega

/-- C2 counterexample: on the span x the date grammar (weight 1.09) and
the cardinal grammar (weight 1.1) both match, yet shortest-path decoding
of the classifier union never returns the date output, because the
measure grammar (weight 0.9) also matches and is strictly cheaper. -/
theorem c2_counterexample :
    GramFull sigmaC2 RuGram.date (lc "x") (lc "D") 0 ∧
    GramFull sigmaC2 RuGram.cardinal (lc "x") (lc "C") 0 ∧
    ruWeight RuGram.date < ruWeight RuGram.cardinal ∧
    IsMinAccept sigmaC2 classify (lc "x") (lc "M") 90 ∧
    ∀ w, ¬ IsMinAccept sigmaC2 classify (lc "x") (lc "D") w := by
  refine ⟨⟨(1, lc "D", 0), by decide, rfl, rfl, by decide⟩,
    ⟨(1, lc "C", 0), by decide, rfl, rfl, by decide⟩, by decide,
    (isMinAccept_iff sigmaC2 classify (lc "x") (lc "M") 90).mpr (by decide), ?_⟩
  intro w hmin
  obtain ⟨h1, h2⟩ := (isMinAccept_iff sigmaC2 classify (lc "x") (lc "D") w).mp hmin
  have hw90 : w ≤ 90 := h2 ([], lc "M", 90) (by decide)
  have hL : fullRuns sigmaC2 classify (lc "x") =
      [([], lc "D", 109), ([], lc "M", 90), ([], lc "C", 110)] := by decide
  rw [hL] at h1
  simp only [List.mem_cons, List.not_mem_nil, or_false] at h1
  rcases h1 with h|h|h
  · have hw : w = 109 := congrArg (fun p : ParseOut => p.2.2) h
    omega
  · have ho : lc "D" = lc "M" := congrArg (fun p : ParseOut => p.2.1) h
    exact absurd ho (by decide)
  · have ho : lc "D" = lc "C" := congrArg (fun p : ParseOut => p.2.1) h
    exact absurd ho (by decide)

/-- C2 (corrected): with zero-weight entity grammars, shortest-path
decoding of the classifier union returns the output of a matching grammar
whose union weight is minimal among all matching grammars (not merely
minimal among a chosen pair); in particular, when the date grammar matches
and neither of the two strictly cheaper grammars (whitelist, measure)
matches, the result is a date output at weight 1.09, beating cardinal; and
the catch-all word grammar is never selected when any other semantic
grammar matches. -/
theorem c2_amended (σ : GramSem RuGram)
    (h0 : ∀ g i x, x ∈ σ g i → x.2.2 = 0) (i : List Char) :
    (∀ o w, IsMinAccept σ classify i o w →
      ∃ g, g ≠ RuGram.punct ∧ GramFull σ g i o 0 ∧ w = ruWeight g ∧
        ∀ g2 o2, g2 ≠ RuGram.punct → GramFull σ g2 i o2 0 → ruWeight g ≤ ruWeight g2) ∧
    ((∃ o1, GramFull σ RuGram.date i o1 0) →
      (∀ o2, ¬ GramFull σ RuGram.whitelist i o2 0) →
      (∀ o2, ¬ GramFull σ RuGram.measure i o2 0) →
      ∀ o w, IsMinAccept σ classify i o w →
        GramFull σ RuGram.date i o 0 ∧ w = 109) ∧
    ((∃ g o2, g ≠ RuGram.punct ∧ g ≠ RuGram.word ∧ GramFull σ g i o2 0) →
      ∀ o w, IsMinAccept σ classify i o w →
        ∃ g, g ≠ RuGram.word ∧ g ≠ RuGram.punct ∧ GramFull σ g i o 0 ∧ w = ruWeight g) := by
  refine ⟨fun o w h => minAccept_classify σ h0 i o w h, ?_, ?_⟩
  · rintro ⟨o1, hdate⟩ hnw hnm o w h
    obtain ⟨g, hg, hfull, hw, hminw⟩ := minAccept_classify σ h0 i o w h
    have hle : ruWeight g ≤ ruWeight RuGram.date := hminw .date o1 (by simp) hdate
    cases g
    · exact absurd hfull (hnw o)
    · exact absurd hle (by decide)
    · exact ⟨hfull, hw⟩
    · exact absurd hle (by decide)
    · exact absurd hfull (hnm o)
    · exact absurd hle (by decide)
    · exact absurd hle (by decide)
    · exact absurd hle (by decide)
    · exact absurd hle (by decide)
    · exact absurd hle (by decide)
    · exact absurd hle (by decide)
    · exact absurd rfl hg
  · rintro ⟨g1, o2, hg1p, hg1w, hfull1⟩ o w h
    obtain ⟨g, hg, hfull, hw, hminw⟩ := minAccept_classify σ h0 i o w h
    have hle : ruWeight g ≤ ruWeight g1 := hminw g1 o2 hg1p hfull1
    refine ⟨g, ?_, hg, hfull, hw⟩
    intro hgw
    subst hgw
    cases g1
    · exact absurd hle (by decide)
    · exact absurd hle (by decide)
    · exact absurd hle (by decide)
    · exact absurd hle (by decide)
    · exact absurd hle (by decide)
    · exact absurd hle (by decide)
    · exact absurd hle (by decide)
    · exact absurd hle (by decide)
    · exact absurd hle (by decide)
    · exact absurd hle (by decide)
    · exact absurd rfl hg1w
    · exact absurd rfl hg1p

/-- Witness for C2 at the concrete grammar semantics `sigmaC2` on input
x: both hypotheses are discharged and the minimal-weight decomposition is
produced for the shortest-path result (the measure output at weight 0.9). -/
theorem c2_amended_witness :
    ∃ g, g ≠ RuGram.punct ∧ GramFull sigmaC2 g (lc "x") (lc "M") 0 ∧ (90 : ℤ) = ruWeight g ∧
      ∀ g2 o2, g2 ≠ RuGram.punct → GramFull sigmaC2 g2 (lc "x") o2 0 →
        ruWeight g ≤ ruWeight g2 := by
  have h0 : ∀ g i x, x ∈ sigmaC2 g i → x.2.2 = 0 := by
    intro g i x hx
    unfold sigmaC2 at hx
    split at hx <;> simp_all
  have hmin : IsMinAccept sigmaC2 classify (lc "x") (lc "M") 90 :=
    (isMinAccept_iff sigmaC2 classify (lc "x") (lc "M") 90).mpr (by decide)
  exact (c2_amended sigmaC2 h0 (lc "x")).1 (lc "M") 90 hmin

theorem goodSpan_append {t1 t2 : List Char} (h1 : GoodSpan t1) (h2 : GoodSpan t2) :
    GoodSpan (t1 ++ t2) := by
  obtain ⟨hn1, hh1, hl1⟩ := h1
  obtain ⟨hn2, hh2, hl2⟩ := h2
  refine ⟨by simp [hn1], ?_, ?_⟩
  · cases t1 with
    | nil => exact absurd rfl hn1
    | cons c t => simpa using hh1
  · rw [List.getLast?_append_of_ne_nil t1 hn2]
    exact hl2

theorem goodSpan_append_left {t1 t2 : List Char} (h1 : t1 = [] ∨ GoodSpan t1)
    (h2 : GoodSpan t2) : GoodSpan (t1 ++ t2) := by
  rcases h1 with rfl|h1
  · simpa using h2
  · exact goodSpan_append h1 h2

theorem goodSpan_append_right {t1 t2 : List Char} (h1 : GoodSpan t1)
    (h2 : t2 = [] ∨ GoodSpan t2) : GoodSpan (t1 ++ t2) := by
  rcases h2 with rfl|h2
  · simpa using h1
  · exact goodSpan_append h1 h2

theorem parses_classify_span (σ : GramSem RuGram)
    (hσ : ∀ g i x, x ∈ σ g i → GoodSpan (List.take x.1 i))
    (i r o : List Char) (w : ℤ) (h : Parses σ classify i r o w) :
    ∃ t, i = t ++ r ∧ GoodSpan t := by
  unfold classify at h
  simp only [parses_alt_iff, parses_wt_iff] at h
  rcases h with ⟨w0,hg,hw⟩|⟨w0,hg,hw⟩|⟨w0,hg,hw⟩|⟨w0,hg,hw⟩|⟨w0,hg,hw⟩|⟨w0,hg,hw⟩|⟨w0,hg,hw⟩|⟨w0,hg,hw⟩|⟨w0,hg,hw⟩|⟨w0,hg,hw⟩|⟨w0,hg,hw⟩
  all_goals obtain ⟨k, hk, hr⟩ := (parses_gram_iff σ _ i r o w0).mp hg
  all_goals refine ⟨i.take k, ?_, hσ _ i (k, o, w0) hk⟩
  all_goals rw [hr]
  all_goals exact (List.take_append_drop k i).symm

theorem parses_punctTok_span (σ : GramSem RuGram)
    (hσ : ∀ g i x, x ∈ σ g i → GoodSpan (List.take x.1 i))
    (i r o : List Char) (w : ℤ) (h : Parses σ punctTok i r o w) :
    ∃ t, i = t ++ r ∧ GoodSpan t := by
  unfold punctTok at h
  rw [parses_cat_iff] at h
  obtain ⟨r1, o1, w1, o2, w2, hpre, h, _, _⟩ := h
  rw [parses_ins_iff] at hpre
  obtain ⟨hr1, _, _⟩ := hpre
  rw [parses_cat_iff] at h
  obtain ⟨r2, o3, w3, o4, w4, hmid, hpost, _, _⟩ := h
  rw [parses_ins_iff] at hpost
  obtain ⟨hr2, _, _⟩ := hpost
  rw [parses_wt_iff] at hmid
  obtain ⟨w0, hg, _⟩ := hmid
  rw [hr1, ← hr2] at hg
  obtain ⟨k, hk, hr⟩ := (parses_gram_iff σ _ i r o3 w0).mp hg
  refine ⟨i.take k, ?_, hσ _ i (k, o3, w0) hk⟩
  rw [hr]
  exact (List.take_append_drop k i).symm

theorem parses_token_span (σ : GramSem RuGram)
    (hσ : ∀ g i x, x ∈ σ g i → GoodSpan (List.take x.1 i))
    (i r o : List Char) (w : ℤ) (h : Parses σ token i r o w) :
    ∃ t, i = t ++ r ∧ GoodSpan t := by
  unfold token at h
  rw [parses_cat_iff] at h
  obtain ⟨r1, o1, w1, o2, w2, hpre, h, _, _⟩ := h
  rw [parses_ins_iff] at hpre
  obtain ⟨hr1, _, _⟩ := hpre
  rw [parses_cat_iff] at h
  obtain ⟨r2, o3, w3, o4, w4, hmid, hpost, _, _⟩ := h
  rw [parses_ins_iff] at hpost
  obtain ⟨hr2, _, _⟩ := hpost
  rw [hr1, ← hr2] at hmid
  exact parses_classify_span σ hσ i r o3 w3 hmid

theorem parses_star_goodspan (σ : GramSem RuGram) (b : Fst RuGram)
    (hb : ∀ i r o w, Parses σ b i r o w → ∃ t, i = t ++ r ∧ GoodSpan t)
    (i r o : List Char) (w : ℤ) (h : Parses σ (.star b) i r o w) :
    ∃ t, i = t ++ r ∧ (t = [] ∨ GoodSpan t) := by
  rw [parses_star_iff] at h
  induction h with
  | nil j => exact ⟨[], rfl, Or.inl rfl⟩
  | cons hp hlen hch ih =>
    obtain ⟨t1, hi, hg1⟩ := hb _ _ _ _ hp
    obtain ⟨t2, hm, hg2⟩ := ih
    subst hi
    subst hm
    refine ⟨t1 ++ t2, by simp, Or.inr ?_⟩
    exact goodSpan_append_right hg1 hg2

theorem parses_punctPre_span (σ : GramSem RuGram)
    (hσ : ∀ g i x, x ∈ σ g i → GoodSpan (List.take x.1 i))
    (i r o : List Char) (w : ℤ)
    (h : Parses σ (.cat punctTok (.ins (lc " "))) i r o w) :
    ∃ t, i = t ++ r ∧ GoodSpan t := by
  rw [parses_cat_iff] at h
  obtain ⟨r1, o1, w1, o2, w2, hp, hins, _, _⟩ := h
  rw [parses_ins_iff] at hins
  obtain ⟨hr, _, _⟩ := hins
  subst hr
  exact parses_punctTok_span σ hσ i r o1 w1 hp

theorem parses_punctPost_span (σ : GramSem RuGram)
    (hσ : ∀ g i x, x ∈ σ g i → GoodSpan (List.take x.1 i))
    (i r o : List Char) (w : ℤ)
    (h : Parses σ (.cat (.ins (lc " ")) punctTok) i r o w) :
    ∃ t, i = t ++ r ∧ GoodSpan t := by
  rw [parses_cat_iff] at h
  obtain ⟨r1, o1, w1, o2, w2, hins, hp, _, _⟩ := h
  rw [parses_ins_iff] at hins
  obtain ⟨hr, _, _⟩ := hins
  subst hr
  exact parses_punctTok_span σ hσ r1 r o2 w2 hp

theorem parses_tpp_span (σ : GramSem RuGram)
    (hσ : ∀ g i x, x ∈ σ g i → GoodSpan (List.take x.1 i))
    (i r o : List Char) (w : ℤ) (h : Parses σ token_plus_punct i r o w) :
    ∃ t, i = t ++ r ∧ TppSpan σ t o := by
  have h0 := h
  unfold token_plus_punct at h0
  rw [parses_cat_iff] at h0
  obtain ⟨r1, o1, w1, o2, w2, hpre, h0, _, _⟩ := h0
  rw [parses_cat_iff] at h0
  obtain ⟨r2, o3, w3, o4, w4, htok, hpost, _, _⟩ := h0
  obtain ⟨ta, hia, hga⟩ :=
    parses_star_goodspan σ _ (fun i2 r2 o2 w2 => parses_punctPre_span σ hσ i2 r2 o2 w2)
      i r1 o1 w1 hpre
  obtain ⟨tb, hib, hgb⟩ := parses_token_span σ hσ r1 r2 o3 w3 htok
  obtain ⟨tc, hic, hgc⟩ :=
    parses_star_goodspan σ _ (fun i2 r2 o2 w2 => parses_punctPost_span σ hσ i2 r2 o2 w2)
      r2 r o4 w4 hpost
  subst hia
  subst hib
  subst hic
  have hgood : GoodSpan (ta ++ (tb ++ tc)) :=
    goodSpan_append_left hga (goodSpan_append_right hgb hgc)
  refine ⟨ta ++ (tb ++ tc), by simp, hgood, r, w, ?_⟩
  have he : ta ++ (tb ++ (tc ++ r)) = (ta ++ (tb ++ tc)) ++ r := by simp
  rw [← he]
  exact h

theorem parses_gapchain (σ : GramSem RuGram)
    (hσ : ∀ g i x, x ∈ σ g i → GoodSpan (List.take x.1 i))
    (i r o : List Char) (w : ℤ)
    (h : Parses σ (.star (.cat (.wt 110 delete_extra_space) token_plus_punct)) i r o w) :
    ∃ rest orest, i = rest ++ r ∧ o = orest ∧ GapChain (TppSpan σ) rest orest := by
  rw [parses_star_iff] at h
  induction h with
  | nil j => exact ⟨[], [], rfl, rfl, GapChain.nil⟩
  | cons hp hlen hch ih =>
    rw [parses_cat_iff] at hp
    obtain ⟨r1, oa, wa, ob, wb, hdxs, htpp, ho1, hw1⟩ := hp
    rw [parses_wt_iff] at hdxs
    obtain ⟨w0, hdxs, _⟩ := hdxs
    rw [parses_delete_extra_space_iff] at hdxs
    obtain ⟨g, hg1, hi2, hoa, _⟩ := hdxs
    obtain ⟨t, hr1, htsp⟩ := parses_tpp_span σ hσ _ _ _ _ htpp
    obtain ⟨rest, orest, hm, ho2, hchain⟩ := ih
    subst hi2
    subst hr1
    subst hm
    refine ⟨List.replicate g ' ' ++ (t ++ rest), ' ' :: (ob ++ orest), by simp, ?_,
      GapChain.cons hg1 htsp hchain⟩
    rw [ho1, hoa, ho2]
    simp

/-- C4: every accepted input decomposes into optional boundary spaces and
token-group spans separated by non-empty space runs, and the output is the
group outputs joined by exactly one space per separating run: every
maximal run of one or more spaces between tokens collapses to a single
space in the classifier output. -/
theorem c4_space_collapse (σ : GramSem RuGram)
    (hσ : ∀ g i x, x ∈ σ g i → GoodSpan (List.take x.1 i))
    (i o : List Char) (w : ℤ) (h : Accepts σ ruClassifyFst i o w) :
    ∃ a z t1 o1 rest orest, TppSpan σ t1 o1 ∧ GapChain (TppSpan σ) rest orest ∧
      i = List.replicate a ' ' ++ (t1 ++ (rest ++ List.replicate z ' ')) ∧
      o = o1 ++ orest := by
  have h2 : Parses σ ruGraph i [] o w := (optimize_preserves σ ruGraph i [] o w).mp h
  unfold ruGraph at h2
  rw [parses_cat_iff] at h2
  obtain ⟨r1, oa, wa, ob, wb, hds, hrest, ho, hw⟩ := h2
  rw [parses_delete_space_iff] at hds
  obtain ⟨a, hi, hoa, _⟩ := hds
  rw [parses_cat_iff] at hrest
  obtain ⟨r2, oc, wc, od, wd, hcore, hds2, hob, _⟩ := hrest
  rw [parses_delete_space_iff] at hds2
  obtain ⟨z, hr2, hod, _⟩ := hds2
  unfold ruSentenceCore at hcore
  rw [parses_cat_iff] at hcore
  obtain ⟨r3, oe, we, og, wg, htpp, hstar, hoc, _⟩ := hcore
  obtain ⟨t1, hr1, htsp⟩ := parses_tpp_span σ hσ _ _ _ _ htpp
  obtain ⟨rest, orest, hr3, hog, hchain⟩ := parses_gapchain σ hσ _ _ _ _ hstar
  refine ⟨a, z, t1, oe, rest, orest, htsp, hchain, ?_, ?_⟩
  · rw [hi, hr1, hr3, hr2]
    simp
  · rw [ho, hoa, hob, hoc, hod, hog]
    simp

/-- Witness for C4 at the concrete semantics `sigmaSp` on the input
7-space-space-space-7: the classifier accepts it with the three-space run
collapsed to one space between the two cardinal tokens. -/
theorem c4_space_collapse_witness :
    (∀ g i x, x ∈ sigmaSp g i → GoodSpan (List.take x.1 i)) ∧
    Accepts sigmaSp ruClassifyFst (lc "7   7")
      (lc "tokens \x7b C7 \x7d tokens \x7b C7 \x7d") 330 ∧
    ∃ a z t1 o1 rest orest, TppSpan sigmaSp t1 o1 ∧ GapChain (TppSpan sigmaSp) rest orest ∧
      lc "7   7" = List.replicate a ' ' ++ (t1 ++ (rest ++ List.replicate z ' ')) ∧
      lc "tokens \x7b C7 \x7d tokens \x7b C7 \x7d" = o1 ++ orest := by
  have hσ : ∀ g i x, x ∈ sigmaSp g i → GoodSpan (List.take x.1 i) := by
    intro g i x hx
    unfold sigmaSp at hx
    split at hx <;> simp_all [GoodSpan]
  have hacc : Accepts sigmaSp ruClassifyFst (lc "7   7")
      (lc "tokens \x7b C7 \x7d tokens \x7b C7 \x7d") 330 :=
    (accepts_iff_mem_fullRuns sigmaSp ruClassifyFst (lc "7   7")
      (lc "tokens \x7b C7 \x7d tokens \x7b C7 \x7d") 330).mpr (by decide)
  exact ⟨hσ, hacc, c4_space_collapse sigmaSp hσ _ _ 330 hacc⟩

/-- C5 counterexample: on an input with a leading space the code's
classifier accepts (its built-in `delete_space` wrappers trim edge
spaces), while the spec's reference construction, which has no such
wrappers, rejects; so the two transducers are not equal. -/
theorem c5_counterexample :
    (∃ o w, Accepts sigmaC5 ruClassifyFst (lc " a") o w) ∧
    ¬ (∃ o w, Accepts sigmaC5 specSentence (lc " a") o w) := by
  constructor
  · exact (exists_accepts_iff sigmaC5 ruClassifyFst (lc " a")).mpr (by decide)
  · intro h
    exact absurd (by decide : fullRuns sigmaC5 specSentence (lc " a") = [])
      ((exists_accepts_iff sigmaC5 specSentence (lc " a")).mp h)

/-- C5 (corrected): the code's classifier equals the spec's reference
token-plus-punctuation construction only after wrapping the latter in
leading and trailing space deletion: the code additionally trims space
runs at the sentence edges. -/
theorem c5_amended (σ : GramSem RuGram) (i r o : List Char) (w : ℤ) :
    Parses σ ruClassifyFst i r o w ↔
      Parses σ (.cat delete_space (.cat specSentence delete_space)) i r o w :=
  optimize_preserves σ ruGraph i r o w

end NemoWfst
